import Mathlib

/-!
Shallow embedding of the `buildSwaggerConfig` synthesizer of baiji-swagger
(src/index.js, second document: the plugin version with `chooseContentType`,
security handling and the optional open body parameter).

Route/parameter descriptors are modelled as explicit structures; the shared
mutable `definitions` object is threaded as explicit state; JS objects used as
ordered string-keyed maps are modelled as association lists with
insertion-order-preserving upsert (JS assignment to an existing key keeps its
position).  lodash `get`/`set` are modelled for key strings free of `[` and
quotes, where lodash's path parser reduces to splitting the key on `.`.
-/

/-- JS-object assignment on an ordered string-keyed map: replace in place if
the key exists (keeping its original position), else append. -/
def upsert {α : Type} : List (String × α) → String → α → List (String × α)
  | [], k, v => [(k, v)]
  | (k', v') :: rest, k, v =>
    if k' = k then (k, v) :: rest else (k', v') :: upsert rest k v

/-- JS-object property read on an ordered string-keyed map. -/
def alookup {α : Type} : List (String × α) → String → Option α
  | [], _ => none
  | (k', v) :: rest, k => if k' = k then some v else alookup rest k

/-- JS `String.prototype.indexOf(pat) > -1` on character lists: the pattern
occurs somewhere in the list. -/
def subOccurs (pat : List Char) : List Char → Bool
  | [] => pat.isEmpty
  | c :: rest => pat.isPrefixOf (c :: rest) || subOccurs pat rest

/-- The character class of the `:param` regex in `pathReplacer`:
`[a-zA-Z0-9\-_]`. -/
def isWordChar (c : Char) : Bool :=
  c.isAlpha || c.isDigit || c = '-' || c = '_'

/-- Head test used for the one-character lookahead of the scanner. -/
def headIsWordChar : List Char → Bool
  | [] => false
  | c :: _ => isWordChar c

/-- Character-list core of `pathReplacer`: one-pass scan rewriting every
maximal `:`-prefixed run of word characters into a brace-wrapped run (the
Bool is "inside a capture run"; a run cannot contain `:` since `:` is not a
word character, so this is the `/:([a-zA-Z0-9\-_]+)/g` global replace). -/
def pathReplaceGo : Bool → List Char → List Char
  | false, [] => []
  | true, [] => ['}']
  | false, c :: rest =>
    if c = ':' ∧ headIsWordChar rest then '{' :: pathReplaceGo true rest
    else c :: pathReplaceGo false rest
  | true, c :: rest =>
    if isWordChar c then c :: pathReplaceGo true rest
    else
      '}' ::
        (if c = ':' ∧ headIsWordChar rest then '{' :: pathReplaceGo true rest
         else c :: pathReplaceGo false rest)

/-- Function `pathReplacer` from src/index.js: transfer `:id`-like parameters to
`{id}`. -/
def pathReplacer (path : String) : String :=
  String.mk (pathReplaceGo false path.toList)

/-- The placeholder names of a raw route path: the captures of the
`/:([a-zA-Z0-9\-_]+)/g` regex used by `pathReplacer`.  Recursing on the
tail (rather than past the captured run) is equivalent because a run
contains no `:`, so no capture can start inside it. -/
def extractPlaceholders : List Char → List String
  | [] => []
  | c :: rest =>
    if c = ':' ∧ rest.takeWhile isWordChar ≠ [] then
      String.mk (rest.takeWhile isWordChar) :: extractPlaceholders rest
    else
      extractPlaceholders rest

/-- Placeholder names of a raw route path string. -/
def pathPlaceholders (s : String) : List String :=
  extractPlaceholders s.toList

/-- Model of lodash `stringToPath` restricted to key strings without `[` or quotes:
split the key on `.`.  Character-list worker; the result is never empty. -/
def splitDotsAux : List Char → List (List Char)
  | [] => [[]]
  | c :: rest =>
    match splitDotsAux rest with
    | [] => [[]]
    | g :: gs => if c = '.' then [] :: g :: gs else (c :: g) :: gs

/-- Model of lodash path-key parsing for bracket- and quote-free keys. -/
def stringToPath (s : String) : List String :=
  (splitDotsAux s.toList).map String.mk

/-! ### Descriptor model -/

/-- The `type` field of a parameter descriptor: either a scalar type name
(possibly absent, i.e. `undefined`) or the array-of-type sentinel
`[elemType]` (whose single element may itself be absent). -/
inductive PTy where
  | scalar (t : Option String)
  | array (elem : Option String)
deriving DecidableEq

/-- A parameter descriptor.  `params` present (even empty, which is truthy
in JS) marks a structured object parameter. -/
inductive Param where
  | mk (name : String) (type : PTy) (required : Bool)
       (description : Option String) (default : Option String)
       (enum : List String) (params : Option (List Param))

def Param.name : Param → String
  | .mk n _ _ _ _ _ _ => n

def Param.type : Param → PTy
  | .mk _ t _ _ _ _ _ => t

def Param.required : Param → Bool
  | .mk _ _ r _ _ _ _ => r

def Param.description : Param → Option String
  | .mk _ _ _ d _ _ _ => d

def Param.default : Param → Option String
  | .mk _ _ _ _ d _ _ => d

def Param.enum : Param → List String
  | .mk _ _ _ _ _ e _ => e

def Param.params : Param → Option (List Param)
  | .mk _ _ _ _ _ _ ps => ps

structure Route where
  verb : String
deriving DecidableEq

/-- A route descriptor as consumed by `addPath`: the framework method object
with its `fullName()` / `fullPath()` accessors modelled as fields, and the
`parent` back-reference flattened into the three fields read by the code. -/
structure Method where
  name : String
  fullName : String
  fullPath : String
  route : Route
  params : List Param
  description : String
  notes : String
  parentName : Option String
  parentDescription : Option String
  parentSettingsDescription : Option String

/-! ### Output model -/

/-- An items object of a parameter config: `{$ref}` or `{type}` plus the
optionally attached `enum`. -/
structure Items where
  ref : Option String := none
  type : Option String := none
  enum : List String := []
deriving DecidableEq

/-- A schema object: a ref or an open object type. -/
structure Schema where
  ref : Option String := none
  type : Option String := none
deriving DecidableEq

/-- A swagger parameter config as assembled by `buildParameters`; absent JS
fields are `none` / `[]`. The JS `in` field is `paramIn`. -/
structure Conf where
  description : Option String := none
  default : Option String := none
  required : Bool := false
  type : Option String := none
  format : Option String := none
  enum : List String := []
  items : Option Items := none
  schema : Option Schema := none
  paramIn : Option String := none
  name : Option String := none
deriving DecidableEq

/-- A property value of a body-schema / definition `properties` map: either
a bare `$ref` schema (`body[name] = conf.schema`) or a full config. -/
inductive BodyVal where
  | sch (s : Schema)
  | conf (c : Conf)
deriving DecidableEq

/-- One entry of the `definitions` map:
`{type: "object", required?: [...], properties: {...}}` (the body definition
carries no `required` list). -/
structure Defn where
  type : String
  required : Option (List String)
  properties : List (String × BodyVal)
deriving DecidableEq

/-- The shared `definitions` object, threaded as state. -/
def Defs : Type := List (String × Defn)

instance : DecidableEq Defs := inferInstanceAs (DecidableEq (List (String × Defn)))

structure Tag where
  name : String
  description : String
deriving DecidableEq

/-- One generated operation object. `security` is the `securities` list:
one `(name, scopes)` per security definition. -/
structure Operation where
  tags : List String
  summary : String
  description : String
  consumes : List String
  produces : List String
  parameters : List Conf
  responses : List (String × String)
  security : List (String × List String)
deriving DecidableEq

/-- A node of the `paths` object written through lodash `set`: inner path
segments are `node`s, a stored method map (`pathConfig`) is a `leaf`. -/
inductive PVal where
  | leaf (ops : List (String × Operation))
  | node (children : List (String × PVal))


/-! ### The synthesizer -/

/-- Function `extractRequiredNames`: names of the parameters flagged required. -/
def extractRequiredNames (params : List Param) : List String :=
  (params.filter (fun p => p.required)).map (fun p => p.name)

/-- Function `chooseParameterPositionBy` (plugin version): `get`/`options` go to
`query`; otherwise `body` if some parameter is structured or the list is
empty, else `formData`. -/
def chooseParameterPositionBy (verb : String) (params : List Param) : String :=
  if verb = "get" ∨ verb = "options" then "query"
  else
    let shouldInBody :=
      if params.length ≠ 0 then params.any (fun p => p.params.isSome)
      else true
    if shouldInBody then "body" else "formData"

/-- The per-parameter config assembly of `buildParameters`, before the
mode-specific (`in`/`name`/`required`/body-folding) handling.  `keyPre` is
the `definitionPrefix`; the `$ref` string is only used when the parameter is
structured. -/
def buildConf ( keyPre : String) (p : Param) : Conf :=
  let base : Conf := { description := p.description, default := p.default,
                       required := p.required }
  let ref := "#/definitions/" ++ ( keyPre ++ p.name)
  match p.type with
  | .array elem =>
    let items : Items :=
      match p.params with
      | some _ => { ref := some ref }
      | none => { type := elem }
    let items := if p.enum ≠ [] then { items with enum := p.enum } else items
    { base with type := some "array", items := some items }
  | .scalar t =>
    match p.params with
    | some _ => { base with schema := some { ref := some ref } }
    | none =>
      let base :=
        if t = some "date" then
          { base with type := some "string", format := some "date-time" }
        else { base with type := t }
      if p.enum ≠ [] then { base with enum := p.enum } else base

/-- Function `buildParameters` in `buildForDefinitiion` mode: accumulate the
`properties` map (`result[param.name] = conf`), emitting a definition entry
for every structured parameter.  `acc` is the partially built map. -/
def buildProps ( keyPre : String) (ps : List Param) (acc : List (String × Conf))
    (defs : Defs) : List (String × Conf) × Defs :=
  match ps with
  | [] => (acc, defs)
  | .mk n t r d df e pp :: rest =>
    let p : Param := .mk n t r d df e pp
    let defs1 :=
      match pp with
      | some inner =>
        let definitionKey := keyPre ++ n
        let pr := buildProps (definitionKey ++ ".") inner [] defs
        upsert pr.2 definitionKey
          ⟨"object", some (extractRequiredNames inner),
            pr.1.map (fun kc => (kc.1, BodyVal.conf kc.2))⟩
      | none => defs
    buildProps keyPre rest (upsert acc n (buildConf keyPre p)) defs1
termination_by sizeOf ps
decreasing_by
  · simp
    omega
  · simp

/-- The test `path.indexOf(':' + param.name) > -1`: the substring test deciding
whether a parameter is bound to the route path. -/
def paramInPath (m : Method) (pname : String) : Bool :=
  subOccurs (':' :: pname.toList) m.fullPath.toList

/-- The parameter-mode iteration of `buildParameters`: accumulate the named
`result` map and the `body` properties map, threading `definitions`. -/
def buildParamsLoop (m : Method) (defaultIn : String) (isInBody : Bool)
    ( keyPre : String) (ps : List Param) (result : List (String × Conf))
    (body : List (String × BodyVal)) (defs : Defs) :
    List (String × Conf) × List (String × BodyVal) × Defs :=
  match ps with
  | [] => (result, body, defs)
  | p :: rest =>
    let defs1 :=
      match p.params with
      | some inner =>
        let definitionKey := keyPre ++ p.name
        let pr := buildProps (definitionKey ++ ".") inner [] defs
        upsert pr.2 definitionKey
          ⟨"object", some (extractRequiredNames inner),
            pr.1.map (fun kc => (kc.1, BodyVal.conf kc.2))⟩
      | none => defs
    let conf := buildConf keyPre p
    let inPath := paramInPath m p.name
    let conf := if inPath then { conf with paramIn := some "path" } else conf
    if isInBody && !inPath then
      let bv :=
        match conf.schema with
        | some s => BodyVal.sch s
        | none => BodyVal.conf conf
      buildParamsLoop m defaultIn isInBody keyPre rest result
        (upsert body p.name bv) defs1
    else
      let conf := { conf with paramIn := some (conf.paramIn.getD defaultIn),
                              name := some p.name,
                              required := if inPath then true else p.required }
      buildParamsLoop m defaultIn isInBody keyPre rest
        (upsert result p.name conf) body defs1

/-- The iteration of `buildParameters` over a route's own parameters, with
the accumulators of the source initialised empty. -/
def buildParamsRaw (m : Method) (params : List Param) (defs : Defs) :
    List (String × Conf) × List (String × BodyVal) × Defs :=
  let defaultIn := chooseParameterPositionBy m.route.verb params
  let bodyDefinitionKey := m.fullName ++ ".params"
  buildParamsLoop m defaultIn (defaultIn = "body") (bodyDefinitionKey ++ ".")
    params [] [] defs

/-- The `required: true` body parameter referencing the accumulated body
definition. -/
def bodyParamRequired (k : String) : Conf :=
  { paramIn := some "body", name := some "body", description := some "body",
    required := true, schema := some { ref := some ("#/definitions/" ++ k) } }

/-- The `required: false` open-object body parameter pushed when no body
properties were accumulated. -/
def bodyParamOptional : Conf :=
  { paramIn := some "body", name := some "body", description := some "body",
    required := false, schema := some { type := some "object" } }

/-- Function `buildParameters` (parameter mode, as called from `addPath`): the
operation's parameter array and the updated `definitions`. -/
def buildParameters (m : Method) (params : List Param) (defs : Defs) :
    List Conf × Defs :=
  let defaultIn := chooseParameterPositionBy m.route.verb params
  let bodyDefinitionKey := m.fullName ++ ".params"
  let raw := buildParamsRaw m params defs
  let res := raw.1.map (fun kc => kc.2)
  if defaultIn = "body" then
    if raw.2.1.isEmpty then
      (res ++ [bodyParamOptional], raw.2.2)
    else
      (res ++ [bodyParamRequired bodyDefinitionKey],
        upsert raw.2.2 bodyDefinitionKey ⟨"object", none, raw.2.1⟩)
  else (res, raw.2.2)

/-- Function `addTag`: register a tag unless its name was registered before. -/
def addTag (tags : List Tag) (addedTags : List String)
    (name description : String) : List Tag × List String :=
  if addedTags.contains name then (tags, addedTags)
  else (tags ++ [⟨name, description⟩], addedTags ++ [name])

/-- Function `chooseContentType`: scan the final parameter list; the first parameter
with type `file` (checked first) or `in: formData` decides; default json. -/
def chooseContentType : List Conf → List String
  | [] => ["application/json"]
  | c :: rest =>
    if c.type = some "file" then ["multipart/form-data"]
    else if c.paramIn = some "formData" then ["application/x-www-form-urlencoded"]
    else chooseContentType rest

/-- Model of lodash `get` over the `paths` object (root children given as a map),
for bracket- and quote-free keys.  Reading through a stored method map
(`leaf`) is outside the modelled fragment and yields `none`. -/
def lodashGetL (ch : List (String × PVal)) : List String → Option PVal
  | [] => none
  | [k] => alookup ch k
  | k :: k' :: rest =>
    match alookup ch k with
    | some (.node ch') => lodashGetL ch' (k' :: rest)
    | _ => none

/-- Model of lodash `set` over the `paths` object, for bracket- and quote-free keys;
missing or non-`node` intermediate slots are (re)created as fresh objects
(the modelled routes never descend through another route's method map). -/
def lodashSetL (ch : List (String × PVal)) : List String → PVal →
    List (String × PVal)
  | [], _ => ch
  | [k], v => upsert ch k v
  | k :: k' :: rest, v =>
    let sub :=
      match alookup ch k with
      | some (.node ch') => ch'
      | _ => []
    upsert ch k (.node (lodashSetL sub (k' :: rest) v))

/-- JS disjunction `a || b` on possibly-absent strings (the empty string is falsy). -/
def jsOr (a : Option String) (b : String) : String :=
  match a with
  | some s => if s = "" then b else s
  | none => b

/-- Computation of `get(method, 'parent.name') || ''`. -/
def tagName (m : Method) : String := jsOr m.parentName ""

/-- Computation of `get(method, 'parent.description') ||
get(method, 'parent.settings.description') || ''`. -/
def tagDesc (m : Method) : String :=
  jsOr m.parentDescription (jsOr m.parentSettingsDescription "")

/-- The per-route plugin context: resolved default responses, supported
produce types and the precomputed `securities` list. -/
structure PluginCtx where
  defaultResponses : List (String × String)
  supportTypes : List String
  securities : List (String × List String)

/-- The operation object literal written (twice, identically) in `addPath`. -/
def buildOperation (P : PluginCtx) (m : Method) (consumes : List String)
    (parameters : List Conf) : Operation :=
  { tags := [tagName m],
    summary := m.fullName ++ " => " ++ m.description,
    description := m.notes,
    consumes := consumes,
    produces := P.supportTypes,
    parameters := parameters,
    responses := P.defaultResponses,
    security := P.securities }

/-- The five concrete verbs a route bound to `all` expands into. -/
def allVerbs : List String := ["get", "post", "put", "delete", "patch"]

/-- The mutable state threaded through `addPath`. -/
structure SwaggerState where
  tags : List Tag
  addedTags : List String
  paths : List (String × PVal)
  definitions : Defs

/-- Function `addPath`: skip the documentation mount and `use` routes, template the
path, aggregate the tag, build parameters and consumes, store the operation
under its verb (or under all five verbs for `all`) via lodash `set`. -/
def addPath (P : PluginCtx) (st : SwaggerState) (m : Method) : SwaggerState :=
  if m.name = "__swagger__" then st else
  let path := pathReplacer m.fullPath
  if m.route.verb = "use" then st else
  let keys := stringToPath path
  let pathConfig : List (String × Operation) :=
    match lodashGetL st.paths keys with
    | some (.leaf ops) => ops
    | _ => []
  let ta := addTag st.tags st.addedTags (tagName m) (tagDesc m)
  let bp := buildParameters m m.params st.definitions
  let consumes := chooseContentType bp.1
  let op := buildOperation P m consumes bp.1
  let ops' :=
    if m.route.verb = "all" then
      allVerbs.foldl (fun acc v => upsert acc v op) pathConfig
    else upsert pathConfig m.route.verb op
  { tags := ta.1, addedTags := ta.2,
    paths := lodashSetL st.paths keys (.leaf ops'),
    definitions := bp.2 }

/-- The `DEFAULT_RESPONSES` constant. -/
def DEFAULT_RESPONSES : List (String × String) :=
  [("default", "Default responses")]

/-- The fixed `acceptTypes` list. -/
def acceptTypes : List String :=
  ["application/json", "application/x-www-form-urlencoded", "multipart/form-data"]

/-- One security definition of `options.swagger.securityDefinitions`
(`scopes` modelled as the key list the code extracts). -/
structure SecurityDef where
  type : String
  scopes : List String

/-- The configuration surface of `buildSwaggerConfig` that feeds the
synthesized tags/paths/definitions/consumes/produces. -/
structure SwaggerOptions where
  defaultResponses : Option (List (String × String))
  supportedTypes : Option (List String)
  securityDefinitions : List (String × SecurityDef)
  seedDefinitions : Defs

/-- The `securities` computation: one single-key object per security
definition, scopes for `oauth2`, empty list otherwise. -/
def mkSecurities (sd : List (String × SecurityDef)) :
    List (String × List String) :=
  sd.map (fun ns => if ns.2.type = "oauth2" then (ns.1, ns.2.scopes) else (ns.1, []))

/-- The synthesized document: the fields of the returned swagger object that
the synthesis pass computes. -/
structure SwaggerDoc where
  tags : List Tag
  paths : List (String × PVal)
  definitions : Defs
  consumes : List String
  produces : List String

/-- Function `buildSwaggerConfig`: fold `addPath` over the route table and assemble
the document. -/
def buildSwaggerConfig (methods : List Method) (opts : SwaggerOptions) :
    SwaggerDoc :=
  let P : PluginCtx :=
    { defaultResponses := opts.defaultResponses.getD DEFAULT_RESPONSES,
      supportTypes := opts.supportedTypes.getD ["application/json"],
      securities := mkSecurities opts.securityDefinitions }
  let st0 : SwaggerState := ⟨[], [], [], opts.seedDefinitions⟩
  let st := methods.foldl (addPath P) st0
  { tags := st.tags, paths := st.paths, definitions := st.definitions,
    consumes := acceptTypes, produces := P.supportTypes }

/-! ### Association-list lemmas -/

theorem alookup_upsert_self {α : Type} (l : List (String × α)) (k : String) (v : α) :
    alookup (upsert l k v) k = some v := by
  induction l with
  | nil => simp [upsert, alookup]
  | cons kv rest ih =>
    obtain ⟨k', v'⟩ := kv
    by_cases h : k' = k <;> simp [upsert, alookup, h, ih]

theorem alookup_upsert_ne {α : Type} (l : List (String × α)) (k k₂ : String) (v : α)
    (h : k₂ ≠ k) : alookup (upsert l k v) k₂ = alookup l k₂ := by
  have h' : ¬ k = k₂ := fun hh => h hh.symm
  induction l with
  | nil => simp [upsert, alookup, h']
  | cons kv rest ih =>
    obtain ⟨k', v'⟩ := kv
    by_cases hk : k' = k
    · subst hk
      simp [upsert, alookup, h']
    · by_cases hk2 : k' = k₂ <;> simp [upsert, alookup, hk, hk2, ih, h]

theorem alookup_mem {α : Type} (l : List (String × α)) (k : String) (v : α)
    (h : alookup l k = some v) : (k, v) ∈ l := by
  induction l with
  | nil => simp [alookup] at h
  | cons kv rest ih =>
    obtain ⟨k', v'⟩ := kv
    by_cases hk : k' = k
    · subst hk
      simp [alookup] at h
      simp [h]
    · simp [alookup, hk] at h
      exact List.mem_cons_of_mem _ (ih h)

theorem mem_upsert_cases {α : Type} (l : List (String × α)) (k a : String) (v b : α)
    (h : (a, b) ∈ upsert l k v) : (a, b) ∈ l ∨ (a = k ∧ b = v) := by
  induction l with
  | nil =>
    simp [upsert] at h
    exact Or.inr h
  | cons kv rest ih =>
    obtain ⟨k', v'⟩ := kv
    by_cases hk : k' = k
    · subst hk
      simp only [upsert, if_pos rfl] at h
      rcases List.mem_cons.mp h with h1 | h1
      · exact Or.inr ⟨congrArg Prod.fst h1, congrArg Prod.snd h1⟩
      · exact Or.inl (List.mem_cons_of_mem _ h1)
    · simp only [upsert, if_neg hk] at h
      rcases List.mem_cons.mp h with h1 | h1
      · exact Or.inl (List.mem_cons.mpr (Or.inl h1))
      · rcases ih h1 with h2 | h2
        · exact Or.inl (List.mem_cons_of_mem _ h2)
        · exact Or.inr h2

theorem mem_upsert_of_mem {α : Type} (l : List (String × α)) (k a : String) (v b : α)
    (ha : a ≠ k) (h : (a, b) ∈ l) : (a, b) ∈ upsert l k v := by
  induction l with
  | nil => simp at h
  | cons kv rest ih =>
    obtain ⟨k', v'⟩ := kv
    rcases List.mem_cons.mp h with h1 | h1
    · have hak : ¬ k' = k := by
        have : a = k' := congrArg Prod.fst h1
        rw [← this]
        exact ha
      simp only [upsert, if_neg hak]
      exact List.mem_cons.mpr (Or.inl h1)
    · by_cases hk' : k' = k
      · simp only [upsert, if_pos hk']
        exact List.mem_cons_of_mem _ h1
      · simp only [upsert, if_neg hk']
        exact List.mem_cons_of_mem _ (ih h1)

/-- The map `l` has an entry for the key `k`. -/
def hasKey {α : Type} (l : List (String × α)) (k : String) : Prop :=
  ∃ v, (k, v) ∈ l

theorem hasKey_upsert_self {α : Type} (l : List (String × α)) (k : String) (v : α) :
    hasKey (upsert l k v) k :=
  ⟨v, alookup_mem _ _ _ (alookup_upsert_self l k v)⟩

theorem hasKey_upsert_mono {α : Type} (l : List (String × α)) (k k₂ : String) (v : α)
    (h : hasKey l k₂) : hasKey (upsert l k v) k₂ := by
  by_cases hk : k₂ = k
  · subst hk
    exact hasKey_upsert_self l k₂ v
  · obtain ⟨w, hw⟩ := h
    exact ⟨w, mem_upsert_of_mem l k k₂ v w hk hw⟩

theorem alookup_eq_none {α : Type} (l : List (String × α)) (k : String)
    (h : ¬ hasKey l k) : alookup l k = none := by
  cases hl : alookup l k with
  | none => rfl
  | some v => exact absurd ⟨v, alookup_mem _ _ _ hl⟩ h

/-! ### Concrete fixtures used by counterexamples and witnesses -/

/-- A plain string parameter. -/
def strParamEx : Param := .mk "a" (.scalar (some "string")) false none none [] none

/-- A file-typed parameter. -/
def fileParamEx : Param := .mk "f" (.scalar (some "file")) false none none [] none

/-- A `post` route declaring a string parameter before a file parameter. -/
def mUpload : Method :=
  ⟨"upload", "files.upload", "/upload", ⟨"post"⟩, [strParamEx, fileParamEx],
    "", "", none, none, none⟩

/-- A `post` route with no parameters. -/
def mPost0 : Method :=
  ⟨"create", "items.create", "/items", ⟨"post"⟩, [], "", "", none, none, none⟩

/-! ### C1 -/

/-- C1 counterexample: for the `post` route `mUpload`, the synthesized
parameter list contains a `type: "file"` config, yet `chooseContentType`
answers `application/x-www-form-urlencoded`, not `multipart/form-data`:
the `in: formData` string parameter preceding the file parameter wins, so
"if any parameter has type file then multipart" is false, and a file entry
does not yield multipart regardless of other parameters' placements. -/
theorem chooseContentType_file_not_global :
    (∃ c ∈ (buildParameters mUpload mUpload.params []).1, c.type = some "file") ∧
    chooseContentType (buildParameters mUpload mUpload.params []).1
      = ["application/x-www-form-urlencoded"] := by
  constructor
  · decide
  · decide

/-- C1 (amended): `chooseContentType` scans the final parameter list in
order; for each parameter, `type: "file"` is checked before
`in: "formData"`, and the first parameter matching either check decides the
content type (`multipart/form-data` for file, `x-www-form-urlencoded` for
formData); if no parameter matches, `application/json`.  In particular a
file parameter yields multipart only when no earlier parameter is already
in formData. -/
theorem chooseContentType_first_match (ps : List Conf) :
    chooseContentType ps =
      (match ps.find? (fun c =>
          decide (c.type = some "file") || decide (c.paramIn = some "formData")) with
       | some c =>
         if c.type = some "file" then ["multipart/form-data"]
         else ["application/x-www-form-urlencoded"]
       | none => ["application/json"]) := by
  induction ps with
  | nil => rfl
  | cons c rest ih =>
    by_cases h1 : c.type = some "file"
    · simp [chooseContentType, List.find?, h1]
    · by_cases h2 : c.paramIn = some "formData"
      · simp [chooseContentType, List.find?, h1, h2]
      · simp [chooseContentType, List.find?, h1, h2, ih]

/-! ### C2 -/

/-- C2: a route with a non-`get`/`options` verb and zero parameters
resolves to `body` placement, and its synthesized parameter list is exactly
the one optional open-object body parameter, with no definitions entry
emitted (the definitions map is returned unchanged). -/
theorem buildParameters_noParams_optionalBody (m : Method) (defs : Defs)
    (hg : m.route.verb ≠ "get") (ho : m.route.verb ≠ "options") :
    chooseParameterPositionBy m.route.verb [] = "body" ∧
    buildParameters m [] defs =
      ([{ description := some "body", required := false,
          schema := some { type := some "object" }, paramIn := some "body",
          name := some "body" }], defs) := by
  have hpos : chooseParameterPositionBy m.route.verb [] = "body" := by
    simp [chooseParameterPositionBy, hg, ho]
  refine ⟨hpos, ?_⟩
  simp [buildParameters, buildParamsRaw, buildParamsLoop, hpos, bodyParamOptional]

/-- C2 witness: the theorem applied to the concrete parameterless `post`
route `mPost0` and an empty definitions map. -/
theorem buildParameters_noParams_optionalBody_witness :
    chooseParameterPositionBy mPost0.route.verb [] = "body" ∧
    buildParameters mPost0 [] [] =
      ([{ description := some "body", required := false,
          schema := some { type := some "object" }, paramIn := some "body",
          name := some "body" }], ([] : Defs)) :=
  buildParameters_noParams_optionalBody mPost0 [] (by decide) (by decide)

/-! ### C8 -/

/-- C8: synthesis is deterministic — the embedding of
`buildSwaggerConfig` is a pure function of the route table and the
configuration (the source pass performs no I/O and reads no other state),
so two runs over the same inputs yield structurally identical documents. -/
theorem buildSwaggerConfig_deterministic (methods : List Method)
    (opts : SwaggerOptions) :
    buildSwaggerConfig methods opts = buildSwaggerConfig methods opts := rfl

/-! ### lodash get/set lemmas -/

theorem splitDotsAux_ne_nil (l : List Char) : splitDotsAux l ≠ [] := by
  cases l with
  | nil => simp [splitDotsAux]
  | cons c rest =>
    cases h : splitDotsAux rest with
    | nil => simp [splitDotsAux, h]
    | cons g gs =>
      simp only [splitDotsAux, h]
      split <;> simp

theorem stringToPath_ne_nil (s : String) : stringToPath s ≠ [] := by
  intro h
  exact splitDotsAux_ne_nil s.toList (by simpa [stringToPath] using h)

theorem lodashGetL_setL (ks : List String) (ch : List (String × PVal)) (v : PVal)
    (h : ks ≠ []) : lodashGetL (lodashSetL ch ks v) ks = some v := by
  induction ks generalizing ch with
  | nil => exact absurd rfl h
  | cons k rest ih =>
    cases rest with
    | nil => simp [lodashSetL, lodashGetL, alookup_upsert_self]
    | cons k2 rest2 =>
      simp only [lodashSetL, lodashGetL, alookup_upsert_self]
      exact ih _ (by simp)

/-! ### C5 -/

/-- C5: for a route with verb `all` whose templated path is not yet present
in the paths tree, `addPath` stores under that path a method map with
exactly the five keys `get, post, put, delete, patch`, in that order, all
bound to one and the same operation object (hence identical tags, summary,
description, consumes, produces, parameters, responses and security). -/
theorem addPath_all_five_verbs (P : PluginCtx) (st : SwaggerState) (m : Method)
    (hv : m.route.verb = "all") (hn : m.name ≠ "__swagger__")
    (hfresh : lodashGetL st.paths (stringToPath (pathReplacer m.fullPath)) = none) :
    ∃ op : Operation,
      lodashGetL (addPath P st m).paths (stringToPath (pathReplacer m.fullPath)) =
        some (.leaf [("get", op), ("post", op), ("put", op), ("delete", op),
                     ("patch", op)]) := by
  refine ⟨buildOperation P m
    (chooseContentType (buildParameters m m.params st.definitions).1)
    (buildParameters m m.params st.definitions).1, ?_⟩
  simp only [addPath, if_neg hn, hv, hfresh]
  rw [if_neg (by decide : ¬ ("all" = "use"))]
  simp only
  rw [lodashGetL_setL _ _ _ (stringToPath_ne_nil _)]
  rfl

/-- A parameterless route bound to verb `all`. -/
def mAll : Method := ⟨"ping", "app.ping", "/ping", ⟨"all"⟩, [], "", "", none, none, none⟩

/-- The empty synthesis state. -/
def stEmpty : SwaggerState := ⟨[], [], [], []⟩

/-- A plugin context with the default responses and produce types. -/
def P0 : PluginCtx := ⟨DEFAULT_RESPONSES, ["application/json"], []⟩

/-- C5 witness: the theorem applied to the concrete `all` route `mAll` on
the empty state. -/
theorem addPath_all_five_verbs_witness :
    ∃ op : Operation,
      lodashGetL (addPath P0 stEmpty mAll).paths
          (stringToPath (pathReplacer mAll.fullPath)) =
        some (.leaf [("get", op), ("post", op), ("put", op), ("delete", op),
                     ("patch", op)]) :=
  addPath_all_five_verbs P0 stEmpty mAll rfl (by decide) rfl

/-! ### C3 -/

/-- The nested `{name:"age", type:"number", required:true}` parameter. -/
def ageParamEx : Param := .mk "age" (.scalar (some "number")) true none none [] none

/-- The structured `{name:"user", params:[age]}` parameter. -/
def userParamEx : Param := .mk "user" (.scalar none) false none none [] (some [ageParamEx])

set_option maxRecDepth 16384 in
/-- C3: for a `post` route with the single structured parameter `user`
(whose name is not bound in the path), the definitions map gains the key
`<fullName>.params.user` with type `object`, required `["age"]` and the
properties map built in definition mode; the operation's parameter list is
exactly one body parameter whose schema is the `$ref` to
`<fullName>.params`; and that definition's `user` property is the bare
`$ref` schema pointing at `<fullName>.params.user`. -/
theorem buildParameters_structured_single (m : Method) (defs : Defs)
    (hv : m.route.verb = "post")
    (hp : paramInPath m "user" = false) :
    alookup (buildParameters m [userParamEx] defs).2 (m.fullName ++ ".params.user") =
      some ⟨"object", some ["age"],
        [("age", BodyVal.conf { required := true, type := some "number" })]⟩ ∧
    alookup (buildParameters m [userParamEx] defs).2 (m.fullName ++ ".params") =
      some ⟨"object", none,
        [("user", BodyVal.sch
            { ref := some ("#/definitions/" ++ (m.fullName ++ ".params.user")) })]⟩ ∧
    (buildParameters m [userParamEx] defs).1 =
      [{ description := some "body", required := true,
         schema := some { ref := some ("#/definitions/" ++ (m.fullName ++ ".params")) },
         paramIn := some "body", name := some "body" }] := by
  have hkey : m.fullName ++ ".params" ++ "." ++ "user" = m.fullName ++ ".params.user" := by
    rw [String.append_assoc, String.append_assoc]
    rfl
  have hne : m.fullName ++ ".params.user" ≠ m.fullName ++ ".params" := by
    intro hh
    have h1 := congrArg String.length hh
    rw [String.length_append, String.length_append] at h1
    have h2 : (".params.user" : String).length = 12 := rfl
    have h3 : (".params" : String).length = 7 := rfl
    omega
  simp [buildParameters, buildParamsRaw, chooseParameterPositionBy, hv,
    buildParamsLoop, buildProps, buildConf, extractRequiredNames, userParamEx,
    ageParamEx, Param.name, Param.params, Param.type, Param.required,
    Param.description, Param.default, Param.enum, hp, hkey, bodyParamRequired,
    upsert]
  rw [alookup_upsert_ne _ _ _ _ hne, alookup_upsert_self, alookup_upsert_self]
  exact ⟨rfl, rfl⟩

/-- A `post` route carrying the single structured `user` parameter. -/
def mUsersCreate : Method :=
  ⟨"create", "users.create", "/users", ⟨"post"⟩, [userParamEx], "", "",
    none, none, none⟩

/-- C3 witness: the theorem applied to the concrete route `mUsersCreate`
and an empty definitions map. -/
theorem buildParameters_structured_single_witness :
    alookup (buildParameters mUsersCreate [userParamEx] []).2
        (mUsersCreate.fullName ++ ".params.user") =
      some ⟨"object", some ["age"],
        [("age", BodyVal.conf { required := true, type := some "number" })]⟩ ∧
    alookup (buildParameters mUsersCreate [userParamEx] []).2
        (mUsersCreate.fullName ++ ".params") =
      some ⟨"object", none,
        [("user", BodyVal.sch
            { ref := some ("#/definitions/" ++ (mUsersCreate.fullName ++ ".params.user")) })]⟩ ∧
    (buildParameters mUsersCreate [userParamEx] []).1 =
      [{ description := some "body", required := true,
         schema := some { ref := some ("#/definitions/" ++ (mUsersCreate.fullName ++ ".params")) },
         paramIn := some "body", name := some "body" }] :=
  buildParameters_structured_single mUsersCreate [] rfl (by decide)

/-! ### C6 -/

/-- Spec-side formulation of tag aggregation: fold the `(name, description)`
pairs, registering a name only on first sight (first description kept,
first-seen insertion order). -/
def tagFoldSpec (start : List Tag) (pairs : List (String × String)) : List Tag :=
  pairs.foldl
    (fun ts nd =>
      if (ts.map Tag.name).contains nd.1 then ts else ts ++ [(⟨nd.1, nd.2⟩ : Tag)])
    start

/-- The `(tagName, tagDesc)` pairs of the routes that are not skipped by
`addPath`. -/
def tagPairs (methods : List Method) : List (String × String) :=
  (methods.filter
    (fun m => decide (¬ (m.name = "__swagger__" ∨ m.route.verb = "use")))).map
    (fun m => (tagName m, tagDesc m))

theorem addPath_foldl_tags (P : PluginCtx) (methods : List Method)
    (st : SwaggerState) (hinv : st.addedTags = st.tags.map Tag.name) :
    (methods.foldl (addPath P) st).tags = tagFoldSpec st.tags (tagPairs methods) ∧
    (methods.foldl (addPath P) st).addedTags =
      ((methods.foldl (addPath P) st).tags).map Tag.name := by
  induction methods generalizing st with
  | nil => exact ⟨rfl, hinv⟩
  | cons m ms ih =>
    by_cases hsw : m.name = "__swagger__"
    · have hskip : addPath P st m = st := by simp [addPath, hsw]
      have hpairs : tagPairs (m :: ms) = tagPairs ms := by
        simp [tagPairs, hsw]
      simpa [List.foldl_cons, hskip, hpairs] using ih st hinv
    · by_cases huse : m.route.verb = "use"
      · have hskip : addPath P st m = st := by simp [addPath, hsw, huse]
        have hpairs : tagPairs (m :: ms) = tagPairs ms := by
          simp [tagPairs, hsw, huse]
        simpa [List.foldl_cons, hskip, hpairs] using ih st hinv
      · have hpairs : tagPairs (m :: ms) = (tagName m, tagDesc m) :: tagPairs ms := by
          simp [tagPairs, hsw, huse]
        have htags : (addPath P st m).tags =
            (addTag st.tags st.addedTags (tagName m) (tagDesc m)).1 := by
          simp [addPath, hsw, huse]
        have hadded : (addPath P st m).addedTags =
            (addTag st.tags st.addedTags (tagName m) (tagDesc m)).2 := by
          simp [addPath, hsw, huse]
        by_cases hc : (st.tags.map Tag.name).contains (tagName m) = true
        · have hstep : addTag st.tags st.addedTags (tagName m) (tagDesc m) =
              (st.tags, st.addedTags) := by
            unfold addTag
            rw [hinv, hc]
            simp
          have hinv' : (addPath P st m).addedTags =
              ((addPath P st m).tags).map Tag.name := by
            rw [htags, hadded, hstep, hinv]
          obtain ⟨ht1, ht2⟩ := ih (addPath P st m) hinv'
          rw [List.foldl_cons]
          refine ⟨?_, ht2⟩
          rw [ht1, htags, hstep, hpairs]
          unfold tagFoldSpec
          rw [List.foldl_cons, if_pos hc]
        · have hstep : addTag st.tags st.addedTags (tagName m) (tagDesc m) =
              (st.tags ++ [⟨tagName m, tagDesc m⟩], st.addedTags ++ [tagName m]) := by
            unfold addTag
            rw [hinv, if_neg hc]
          have hinv' : (addPath P st m).addedTags =
              ((addPath P st m).tags).map Tag.name := by
            rw [htags, hadded, hstep, hinv]
            simp
          obtain ⟨ht1, ht2⟩ := ih (addPath P st m) hinv'
          rw [List.foldl_cons]
          refine ⟨?_, ht2⟩
          rw [ht1, htags, hstep, hpairs]
          unfold tagFoldSpec
          rw [List.foldl_cons, if_neg hc]

theorem tagFoldSpec_nodup (pairs : List (String × String)) (start : List Tag)
    (h : (start.map Tag.name).Nodup) :
    ((tagFoldSpec start pairs).map Tag.name).Nodup := by
  induction pairs generalizing start with
  | nil => exact h
  | cons nd rest ih =>
    by_cases hc : (start.map Tag.name).contains nd.1 = true
    · have hfold : tagFoldSpec start (nd :: rest) = tagFoldSpec start rest := by
        unfold tagFoldSpec
        rw [List.foldl_cons, if_pos hc]
      rw [hfold]
      exact ih start h
    · have hmem : nd.1 ∉ start.map Tag.name := by
        intro hmem
        apply hc
        simpa using hmem
      have h' : ((start ++ [(⟨nd.1, nd.2⟩ : Tag)]).map Tag.name).Nodup := by
        simp only [List.map_append, List.map_cons, List.map_nil]
        rw [List.nodup_append]
        refine ⟨h, List.nodup_singleton _, ?_⟩
        intro a ha hb
        simp at hb
        subst hb
        exact hmem ha
      have hfold : tagFoldSpec start (nd :: rest) =
          tagFoldSpec (start ++ [(⟨nd.1, nd.2⟩ : Tag)]) rest := by
        unfold tagFoldSpec
        rw [List.foldl_cons, if_neg hc]
      rw [hfold]
      exact ih (start ++ [(⟨nd.1, nd.2⟩ : Tag)]) h'

/-- C6: tag aggregation registers each group name at most once, in
first-seen order, keeping the first description encountered: the output
tags list is exactly the first-occurrence fold of the routes'
`(tagName, tagDesc)` pairs (so two routes sharing a name but differing in
description yield one entry, with the first description), and the tag
names carry no duplicates. -/
theorem tags_dedup_first_wins (methods : List Method) (opts : SwaggerOptions) :
    (buildSwaggerConfig methods opts).tags = tagFoldSpec [] (tagPairs methods) ∧
    (((buildSwaggerConfig methods opts).tags).map Tag.name).Nodup := by
  have h := addPath_foldl_tags
    { defaultResponses := opts.defaultResponses.getD DEFAULT_RESPONSES,
      supportTypes := opts.supportedTypes.getD ["application/json"],
      securities := mkSecurities opts.securityDefinitions }
    methods ⟨[], [], [], opts.seedDefinitions⟩ rfl
  constructor
  · exact h.1
  · rw [show (buildSwaggerConfig methods opts).tags =
        tagFoldSpec [] (tagPairs methods) from h.1]
    exact tagFoldSpec_nodup (tagPairs methods) [] (by simp)

/-! ### C10 -/

theorem splitDotsAux_no_dot (l : List Char) (h : '.' ∉ l) : splitDotsAux l = [l] := by
  induction l with
  | nil => rfl
  | cons c rest ih =>
    have hc : ¬ c = '.' := by
      intro hh
      exact h (hh ▸ List.mem_cons_self _ _)
    have hr : '.' ∉ rest := fun hh => h (List.mem_cons_of_mem _ hh)
    simp [splitDotsAux, ih hr, hc]

theorem stringToPath_no_dot (s : String) (h : '.' ∉ s.toList) :
    stringToPath s = [s] := by
  unfold stringToPath
  rw [splitDotsAux_no_dot s.toList h]
  rfl

theorem splitDotsAux_dot (l : List Char) (h : '.' ∈ l) :
    2 ≤ (splitDotsAux l).length := by
  induction l with
  | nil => simp at h
  | cons c rest ih =>
    cases hsp : splitDotsAux rest with
    | nil => exact absurd hsp (splitDotsAux_ne_nil rest)
    | cons g gs =>
      by_cases hc : c = '.'
      · simp [splitDotsAux, hsp, hc]
      · have hr : '.' ∈ rest := by
          rcases List.mem_cons.mp h with h1 | h1
          · exact absurd h1.symm hc
          · exact h1
        have := ih hr
        rw [hsp] at this
        simp only [splitDotsAux, hsp, if_neg hc]
        simpa using this

theorem splitDotsAux_mem_no_dot (l g : List Char) (hg : g ∈ splitDotsAux l) :
    '.' ∉ g := by
  induction l generalizing g with
  | nil =>
    simp [splitDotsAux] at hg
    simp [hg]
  | cons c rest ih =>
    cases hsp : splitDotsAux rest with
    | nil => exact absurd hsp (splitDotsAux_ne_nil rest)
    | cons g' gs' =>
      by_cases hc : c = '.'
      · rw [show splitDotsAux (c :: rest) = [] :: g' :: gs' from by
          simp [splitDotsAux, hsp, hc]] at hg
        rcases List.mem_cons.mp hg with h1 | h1
        · simp [h1]
        · exact ih g (hsp ▸ h1)
      · rw [show splitDotsAux (c :: rest) = (c :: g') :: gs' from by
          simp [splitDotsAux, hsp, hc]] at hg
        rcases List.mem_cons.mp hg with h1 | h1
        · subst h1
          intro hmem
          rcases List.mem_cons.mp hmem with h2 | h2
          · exact hc h2.symm
          · exact ih g' (hsp ▸ List.mem_cons_self _ _) h2
        · exact ih g (hsp ▸ List.mem_cons_of_mem _ h1)

theorem stringToPath_mem_no_dot (s k : String) (hk : k ∈ stringToPath s) :
    '.' ∉ k.toList := by
  simp only [stringToPath, List.mem_map] at hk
  obtain ⟨g, hg, hgk⟩ := hk
  subst hgk
  exact splitDotsAux_mem_no_dot s.toList g hg

/-- The method map that `addPath` stores for a non-skipped route. -/
def addPathOps (P : PluginCtx) (st : SwaggerState) (m : Method) :
    List (String × Operation) :=
  let keys := stringToPath (pathReplacer m.fullPath)
  let pathConfig : List (String × Operation) :=
    match lodashGetL st.paths keys with
    | some (.leaf ops) => ops
    | _ => []
  let bp := buildParameters m m.params st.definitions
  let op := buildOperation P m (chooseContentType bp.1) bp.1
  if m.route.verb = "all" then allVerbs.foldl (fun acc v => upsert acc v op) pathConfig
  else upsert pathConfig m.route.verb op

/-- C10: path entries are written with the lodash deep-set utility, which
splits key strings on `.`: for a non-skipped route whose templated path
contains no `.` and no `[`, the literal templated path is a key of the
paths map, bound to a stored method map; but when the templated path
contains a `.`, the literal path is not a key of the paths map (given that
the existing root keys are dot-free, which synthesis itself guarantees) —
the method map is stored under the dot-split key sequence instead. -/
theorem addPath_lodash_key_splitting (P : PluginCtx) (st : SwaggerState) (m : Method)
    (hn : m.name ≠ "__swagger__") (hu : m.route.verb ≠ "use") :
    (('.' ∉ (pathReplacer m.fullPath).toList ∧
      '[' ∉ (pathReplacer m.fullPath).toList) →
      ∃ ops, alookup (addPath P st m).paths (pathReplacer m.fullPath) =
        some (.leaf ops)) ∧
    ('.' ∈ (pathReplacer m.fullPath).toList →
      (∀ kv ∈ st.paths, '.' ∉ kv.1.toList) →
      alookup (addPath P st m).paths (pathReplacer m.fullPath) = none ∧
      ∃ ops, lodashGetL (addPath P st m).paths
          (stringToPath (pathReplacer m.fullPath)) = some (.leaf ops)) := by
  have hpaths : (addPath P st m).paths =
      lodashSetL st.paths (stringToPath (pathReplacer m.fullPath))
        (.leaf (addPathOps P st m)) := by
    simp only [addPath, addPathOps, if_neg hn, if_neg hu]
  constructor
  · rintro ⟨hd, _⟩
    refine ⟨addPathOps P st m, ?_⟩
    rw [hpaths, stringToPath_no_dot _ hd]
    simp only [lodashSetL]
    exact alookup_upsert_self _ _ _
  · intro hd hfree
    have hlen := splitDotsAux_dot (pathReplacer m.fullPath).toList hd
    have hlen2 : 2 ≤ (stringToPath (pathReplacer m.fullPath)).length := by
      simpa [stringToPath] using hlen
    constructor
    · rcases hsp : stringToPath (pathReplacer m.fullPath) with _ | ⟨k1, rest⟩
      · exact absurd hsp (stringToPath_ne_nil _)
      · rcases rest with _ | ⟨k2, rest2⟩
        · rw [hsp] at hlen2
          simp at hlen2
        · have hk1 : '.' ∉ k1.toList :=
            stringToPath_mem_no_dot _ _ (by rw [hsp]; exact List.mem_cons_self _ _)
          have hne : pathReplacer m.fullPath ≠ k1 := by
            intro hh
            exact hk1 (hh ▸ hd)
          rw [hpaths, hsp]
          simp only [lodashSetL]
          rw [alookup_upsert_ne _ _ _ _ hne]
          apply alookup_eq_none
          rintro ⟨v, hv⟩
          exact (hfree (pathReplacer m.fullPath, v) hv) hd
    · exact ⟨addPathOps P st m,
        by rw [hpaths]; exact lodashGetL_setL _ _ _ (stringToPath_ne_nil _)⟩

/-- A route whose path contains a version dot. -/
def mDotted : Method :=
  ⟨"list", "v10.users.list", "/v1.0/users", ⟨"get"⟩, [], "", "", none, none, none⟩

/-- C10 witness: the theorem applied to the concrete dotted route
`/v1.0/users` on the empty state: the literal templated path is not a key,
the operation sits under the split keys `["/v1", "0/users"]`. -/
theorem addPath_lodash_key_splitting_witness :
    stringToPath (pathReplacer mDotted.fullPath) = ["/v1", "0/users"] ∧
    (alookup (addPath P0 stEmpty mDotted).paths (pathReplacer mDotted.fullPath) = none ∧
      ∃ ops, lodashGetL (addPath P0 stEmpty mDotted).paths
          (stringToPath (pathReplacer mDotted.fullPath)) = some (.leaf ops)) :=
  ⟨by decide,
    (addPath_lodash_key_splitting P0 stEmpty mDotted (by decide) (by decide)).2
      (by decide) (by simp [stEmpty])⟩

/-! ### C4 / C9: path-binding of parameters -/

theorem buildConf_paramIn ( keyPre : String) (p : Param) :
    (buildConf keyPre p).paramIn = none := by
  unfold buildConf
  cases hq : p.type with
  | array e =>
    cases hps : p.params <;> simp <;> split_ifs <;> rfl
  | scalar t =>
    cases hps : p.params <;> simp <;> split_ifs <;> rfl

theorem buildConf_name ( keyPre : String) (p : Param) :
    (buildConf keyPre p).name = none := by
  unfold buildConf
  cases hq : p.type with
  | array e =>
    cases hps : p.params <;> simp <;> split_ifs <;> rfl
  | scalar t =>
    cases hps : p.params <;> simp <;> split_ifs <;> rfl

theorem chooseParameterPositionBy_ne_path (verb : String) (params : List Param) :
    chooseParameterPositionBy verb params ≠ "path" := by
  unfold chooseParameterPositionBy
  dsimp only
  split_ifs <;> decide

theorem subOccurs_cons (pat : List Char) (c : Char) (l : List Char)
    (h : subOccurs pat l = true) : subOccurs pat (c :: l) = true := by
  simp [subOccurs, h]

/-- A name captured by the placeholder scan occurs as `:name` in the path:
the substring test of the code subsumes exact placeholder matching. -/
theorem subOccurs_of_placeholder (l : List Char) (name : String)
    (h : name ∈ extractPlaceholders l) :
    subOccurs (':' :: name.toList) l = true := by
  induction l with
  | nil => simp [extractPlaceholders] at h
  | cons c rest ih =>
    by_cases hcond : c = ':' ∧ rest.takeWhile isWordChar ≠ []
    · rw [extractPlaceholders, if_pos hcond] at h
      rcases List.mem_cons.mp h with h1 | h1
      · subst h1
        obtain ⟨hc, _⟩ := hcond
        subst hc
        have hpre : (rest.takeWhile isWordChar).isPrefixOf rest = true := by
          rw [List.isPrefixOf_iff_prefix]
          exact List.takeWhile_prefix _
        simp [subOccurs, List.isPrefixOf, hpre]
      · exact subOccurs_cons _ _ _ (ih h1)
    · rw [extractPlaceholders, if_neg hcond] at h
      exact subOccurs_cons _ _ _ (ih h)

/-- Shape invariant of the `result` entries of `buildParamsLoop`: each
stored config carries its key as `name`, is forced `in: path` with
`required: true` exactly when `:key` occurs in the raw path, and otherwise
carries the resolved default placement. -/
def confSpec (m : Method) (defaultIn k : String) (c : Conf) : Prop :=
  c.name = some k ∧
  (paramInPath m k = true → c.paramIn = some "path" ∧ c.required = true) ∧
  (paramInPath m k = false → c.paramIn = some defaultIn)

theorem buildParamsLoop_result_spec (m : Method) (defaultIn : String)
    (isInBody : Bool) ( keyPre : String) (ps : List Param) :
    ∀ result body defs,
      (∀ kc ∈ result, confSpec m defaultIn kc.1 kc.2) →
      ∀ kc ∈ (buildParamsLoop m defaultIn isInBody keyPre ps result body defs).1,
        confSpec m defaultIn kc.1 kc.2 := by
  induction ps with
  | nil =>
    intro result body defs hres
    simpa [buildParamsLoop] using hres
  | cons p rest ih =>
    intro result body defs hres
    rw [buildParamsLoop]
    by_cases hc : (isInBody && !(paramInPath m p.name)) = true
    · rw [if_pos hc]
      exact ih _ _ _ hres
    · rw [if_neg hc]
      apply ih
      rintro ⟨a, b⟩ hab
      rcases mem_upsert_cases _ _ _ _ _ hab with h1 | ⟨h1, h2⟩
      · exact hres _ h1
      · subst h1
        subst h2
        refine ⟨rfl, ?_, ?_⟩
        · intro hip
          simp [hip, buildConf_paramIn]
        · intro hip
          simp [hip, buildConf_paramIn]

theorem buildParamsLoop_key_present (m : Method) (defaultIn : String)
    (isInBody : Bool) ( keyPre : String) (ps : List Param) :
    ∀ result body defs (k : String),
      hasKey result k →
      hasKey (buildParamsLoop m defaultIn isInBody keyPre ps result body defs).1 k := by
  induction ps with
  | nil =>
    intro result body defs k hk
    simpa [buildParamsLoop] using hk
  | cons p rest ih =>
    intro result body defs k hk
    rw [buildParamsLoop]
    by_cases hc : (isInBody && !(paramInPath m p.name)) = true
    · rw [if_pos hc]
      exact ih _ _ _ _ hk
    · rw [if_neg hc]
      exact ih _ _ _ _ (hasKey_upsert_mono _ _ _ _ hk)

theorem buildParamsLoop_mem_of_inPath (m : Method) (defaultIn : String)
    (isInBody : Bool) ( keyPre : String) (ps : List Param) :
    ∀ result body defs (p : Param),
      p ∈ ps → paramInPath m p.name = true →
      hasKey (buildParamsLoop m defaultIn isInBody keyPre ps result body defs).1
        p.name := by
  induction ps with
  | nil =>
    intro result body defs p hp
    simp at hp
  | cons q rest ih =>
    intro result body defs p hp hip
    rcases List.mem_cons.mp hp with h1 | h1
    · subst h1
      rw [buildParamsLoop]
      rw [if_neg (by simp [hip])]
      exact buildParamsLoop_key_present m defaultIn isInBody keyPre rest _ _ _ _
        (hasKey_upsert_self _ _ _)
    · rw [buildParamsLoop]
      by_cases hc : (isInBody && !(paramInPath m q.name)) = true
      · rw [if_pos hc]
        exact ih _ _ _ _ h1 hip
      · rw [if_neg hc]
        exact ih _ _ _ _ h1 hip

theorem buildParamsLoop_body_none (m : Method) (defaultIn : String)
    (isInBody : Bool) ( keyPre : String) (ps : List Param) :
    ∀ result body defs (k : String),
      paramInPath m k = true → alookup body k = none →
      alookup (buildParamsLoop m defaultIn isInBody keyPre ps result body defs).2.1
        k = none := by
  induction ps with
  | nil =>
    intro result body defs k hip hb
    simpa [buildParamsLoop] using hb
  | cons p rest ih =>
    intro result body defs k hip hb
    rw [buildParamsLoop]
    by_cases hc : (isInBody && !(paramInPath m p.name)) = true
    · rw [if_pos hc]
      apply ih _ _ _ _ hip
      have hne : k ≠ p.name := by
        intro hh
        subst hh
        simp [hip] at hc
      rw [alookup_upsert_ne _ _ _ _ hne, hb]
    · rw [if_neg hc]
      exact ih _ _ _ _ hip hb

theorem buildParamsRaw_spec_entries (m : Method) (params : List Param)
    (defs : Defs) :
    ∀ kc ∈ (buildParamsRaw m params defs).1,
      confSpec m (chooseParameterPositionBy m.route.verb params) kc.1 kc.2 := by
  unfold buildParamsRaw
  exact buildParamsLoop_result_spec _ _ _ _ _ _ _ _ (by simp)

theorem buildParamsRaw_mem_of_inPath (m : Method) (params : List Param)
    (defs : Defs) (p : Param) (hp : p ∈ params)
    (hip : paramInPath m p.name = true) :
    hasKey (buildParamsRaw m params defs).1 p.name := by
  unfold buildParamsRaw
  exact buildParamsLoop_mem_of_inPath _ _ _ _ _ _ _ _ _ hp hip

theorem buildParamsRaw_body_none (m : Method) (params : List Param)
    (defs : Defs) (k : String) (hip : paramInPath m k = true) :
    alookup (buildParamsRaw m params defs).2.1 k = none := by
  unfold buildParamsRaw
  exact buildParamsLoop_body_none _ _ _ _ _ _ _ _ _ hip rfl

theorem mem_buildParameters_of_mem_raw (m : Method) (params : List Param)
    (defs : Defs) (c : Conf)
    (h : c ∈ (buildParamsRaw m params defs).1.map (fun kc => kc.2)) :
    c ∈ (buildParameters m params defs).1 := by
  unfold buildParameters
  dsimp only
  split_ifs
  · exact List.mem_append_left _ h
  · exact List.mem_append_left _ h
  · exact h

theorem buildParameters_mem_cases (m : Method) (params : List Param)
    (defs : Defs) (c : Conf)
    (h : c ∈ (buildParameters m params defs).1) :
    c ∈ (buildParamsRaw m params defs).1.map (fun kc => kc.2) ∨
    c = bodyParamRequired (m.fullName ++ ".params") ∨ c = bodyParamOptional := by
  unfold buildParameters at h
  dsimp only at h
  split_ifs at h
  · rcases List.mem_append.mp h with h1 | h1
    · exact Or.inl h1
    · right
      right
      simpa using h1
  · rcases List.mem_append.mp h with h1 | h1
    · exact Or.inl h1
    · right
      left
      simpa using h1
  · exact Or.inl h

/-- C4: a parameter whose name matches a path placeholder of the route's
raw path is emitted as a top-level parameter config with `in: "path"` and
`required: true` (overriding its own `required` flag and the route's
default placement), and its name is never folded into the accumulated body
properties map. -/
theorem pathPlaceholder_param_forced (m : Method) (params : List Param)
    (defs : Defs) (p : Param) (hp : p ∈ params)
    (hph : p.name ∈ pathPlaceholders m.fullPath) :
    (∃ c ∈ (buildParameters m params defs).1,
        c.name = some p.name ∧ c.paramIn = some "path" ∧ c.required = true) ∧
    alookup (buildParamsRaw m params defs).2.1 p.name = none := by
  have hip : paramInPath m p.name = true := subOccurs_of_placeholder _ _ hph
  constructor
  · obtain ⟨c, hcmem⟩ := buildParamsRaw_mem_of_inPath m params defs p hp hip
    have hspec := buildParamsRaw_spec_entries m params defs (p.name, c) hcmem
    refine ⟨c, ?_, hspec.1, (hspec.2.1 hip).1, (hspec.2.1 hip).2⟩
    exact mem_buildParameters_of_mem_raw m params defs c
      (List.mem_map.mpr ⟨(p.name, c), hcmem, rfl⟩)
  · exact buildParamsRaw_body_none m params defs p.name hip

/-- The `id` parameter used by the C4 witness, declared optional. -/
def idParamEx : Param := .mk "id" (.scalar (some "string")) false none none [] none

/-- A `get` route whose path binds `:id`. -/
def mUserShow : Method :=
  ⟨"show", "users.show", "/users/:id", ⟨"get"⟩, [idParamEx], "", "",
    none, none, none⟩

/-- C4 witness: the theorem applied to the concrete `/users/:id` route and
its `id` parameter (declared `required: false`, forced `true`). -/
theorem pathPlaceholder_param_forced_witness :
    (∃ c ∈ (buildParameters mUserShow [idParamEx] []).1,
        c.name = some idParamEx.name ∧ c.paramIn = some "path" ∧
        c.required = true) ∧
    alookup (buildParamsRaw mUserShow [idParamEx] []).2.1 idParamEx.name = none :=
  pathPlaceholder_param_forced mUserShow [idParamEx] [] idParamEx
    (List.mem_singleton.mpr rfl) (by decide)

/-- The `id` parameter of the C9 example. -/
def pidParamEx : Param := .mk "id" (.scalar (some "string")) false none none [] none

/-- A route whose path placeholder `identifier` properly extends the
parameter name `id`. -/
def mIdentifier : Method :=
  ⟨"show", "things.show", "/:identifier", ⟨"get"⟩, [pidParamEx], "", "",
    none, none, none⟩

/-- C9: path-binding is decided by the substring test
`path.indexOf(':' + name) > -1`, not by exact placeholder match: a
parameter is emitted `in: "path"`/`required: true` exactly when `:name`
occurs in the raw path (otherwise its config never carries `in: "path"`).
In particular, for the route `/:identifier` the parameter `id` is forced
into the path although the path's only placeholder is `identifier`, not
`id`. -/
theorem paramInPath_substring_semantics :
    (∀(m : Method) (params : List Param) (defs : Defs) (p : Param),
        p ∈ params → paramInPath m p.name = true →
        ∃ c ∈ (buildParameters m params defs).1,
          c.name = some p.name ∧ c.paramIn = some "path" ∧ c.required = true) ∧
    (∀(m : Method) (params : List Param) (defs : Defs) (p : Param),
        p ∈ params → paramInPath m p.name = false →
        ∀ c ∈ (buildParameters m params defs).1,
          c.name = some p.name → c.paramIn ≠ some "path") ∧
    (paramInPath mIdentifier "id" = true ∧
      "id" ∉ pathPlaceholders mIdentifier.fullPath ∧
      ∃ c ∈ (buildParameters mIdentifier [pidParamEx] []).1,
        c.name = some "id" ∧ c.paramIn = some "path" ∧ c.required = true) := by
  refine ⟨?_, ?_, by decide, by decide, by decide⟩
  · intro m params defs p hp hip
    obtain ⟨c, hcmem⟩ := buildParamsRaw_mem_of_inPath m params defs p hp hip
    have hspec := buildParamsRaw_spec_entries m params defs (p.name, c) hcmem
    refine ⟨c, ?_, hspec.1, (hspec.2.1 hip).1, (hspec.2.1 hip).2⟩
    exact mem_buildParameters_of_mem_raw m params defs c
      (List.mem_map.mpr ⟨(p.name, c), hcmem, rfl⟩)
  · intro m params defs p hp hip c hc hcname
    rcases buildParameters_mem_cases m params defs c hc with h1 | h1 | h1
    · obtain ⟨kc, hkc, hkc2⟩ := List.mem_map.mp h1
      have hspec := buildParamsRaw_spec_entries m params defs kc hkc
      have hkey : kc.1 = p.name := by
        have h2 := hspec.1
        rw [hkc2] at h2
        rw [h2] at hcname
        exact Option.some.inj hcname
      have h3 := hspec.2.2
      rw [hkey] at h3
      have h4 := h3 hip
      rw [hkc2] at h4
      rw [h4]
      intro hcontra
      exact chooseParameterPositionBy_ne_path m.route.verb params
        (Option.some.inj hcontra)
    · rw [h1]
      simp [bodyParamRequired]
    · rw [h1]
      simp [bodyParamOptional]

/-- C9 witness: the positive (substring) direction applied to the
`/:identifier` route and its `id` parameter. -/
theorem paramInPath_substring_semantics_witness :
    ∃ c ∈ (buildParameters mIdentifier [pidParamEx] []).1,
      c.name = some pidParamEx.name ∧ c.paramIn = some "path" ∧
      c.required = true :=
  paramInPath_substring_semantics.1 mIdentifier [pidParamEx] [] pidParamEx
    (List.mem_singleton.mpr rfl) (by decide)

/-! ### C7: every generated `$ref` resolves in `definitions` -/

/-- Ref strings of an items object. -/
def itemsRefs (it : Items) : List String := it.ref.toList

/-- Ref strings of a schema object. -/
def schemaRefs (s : Schema) : List String := s.ref.toList

/-- Ref strings occurring in a parameter config (its items and its
schema). -/
def confRefs (c : Conf) : List String :=
  (match c.items with | some it => itemsRefs it | none => []) ++
  (match c.schema with | some s => schemaRefs s | none => [])

/-- Ref strings of a body/definition property value. -/
def bodyValRefs : BodyVal → List String
  | .sch s => schemaRefs s
  | .conf c => confRefs c

/-- All `$ref` strings of the values of a string-keyed map. -/
def entriesRefs {α : Type} (f : α → List String) : List (String × α) → List String
  | [] => []
  | kv :: rest => f kv.2 ++ entriesRefs f rest

/-- Ref strings of one definitions entry. -/
def defnRefs (d : Defn) : List String := entriesRefs bodyValRefs d.properties

/-- Ref strings of the whole definitions map. -/
def defsRefs (ds : Defs) : List String := entriesRefs defnRefs ds

/-- Ref strings of a parameter list. -/
def confsRefs : List Conf → List String
  | [] => []
  | c :: rest => confRefs c ++ confsRefs rest

/-- Ref strings of an operation (its parameter schemas, array items and
body parameters). -/
def opRefs (o : Operation) : List String := confsRefs o.parameters

mutual

/-- Ref strings of one slot of the paths tree. -/
def pvalRefs : PVal → List String
  | .leaf ops => entriesRefs opRefs ops
  | .node ch => pvalsRefs ch

/-- Ref strings of a paths subtree map. -/
def pvalsRefs : List (String × PVal) → List String
  | [] => []
  | kv :: rest => pvalRefs kv.2 ++ pvalsRefs rest

end

/-- All `$ref` strings of a synthesized document: those in the operations
stored in `paths` and those in `definitions` (nested definition
properties included). -/
def docRefs (doc : SwaggerDoc) : List String :=
  pvalsRefs doc.paths ++ defsRefs doc.definitions

/-- The `$ref` string `r` resolves against the definitions map `ds`. -/
def goodRef (ds : Defs) (r : String) : Prop :=
  ∃ k, hasKey ds k ∧ r = "#/definitions/" ++ k

/-- Every `$ref` inside `ds` itself resolves against `ds`. -/
def defsGood (ds : Defs) : Prop := ∀ r ∈ defsRefs ds, goodRef ds r

/-- Map `d2` has every key of `d1`. -/
def keysLE (d1 d2 : Defs) : Prop := ∀ k, hasKey d1 k → hasKey d2 k

theorem keysLE_refl (d : Defs) : keysLE d d := fun _ h => h

theorem keysLE_trans {d1 d2 d3 : Defs} (h1 : keysLE d1 d2) (h2 : keysLE d2 d3) :
    keysLE d1 d3 := fun k h => h2 k (h1 k h)

theorem keysLE_upsert (d : Defs) (k : String) (v : Defn) :
    keysLE d (upsert d k v) := fun k2 hk => hasKey_upsert_mono _ _ _ _ hk

theorem goodRef_mono {d1 d2 : Defs} (h : keysLE d1 d2) {r : String}
    (hg : goodRef d1 r) : goodRef d2 r := by
  obtain ⟨k, hk, hr⟩ := hg
  exact ⟨k, h k hk, hr⟩

theorem entriesRefs_mem {α : Type} (f : α → List String)
    (l : List (String × α)) (r : String) :
    r ∈ entriesRefs f l ↔ ∃ kv ∈ l, r ∈ f kv.2 := by
  induction l with
  | nil => simp [entriesRefs]
  | cons kv rest ih =>
    simp only [entriesRefs, List.mem_append, ih, List.mem_cons]
    constructor
    · rintro (h | ⟨kv2, hkv2, hr⟩)
      · exact ⟨kv, Or.inl rfl, h⟩
      · exact ⟨kv2, Or.inr hkv2, hr⟩
    · rintro ⟨kv2, hkv2 | hkv2, hr⟩
      · subst hkv2
        exact Or.inl hr
      · exact Or.inr ⟨kv2, hkv2, hr⟩

theorem entriesRefs_upsert {α : Type} (f : α → List String)
    (l : List (String × α)) (k : String) (v : α) (r : String)
    (h : r ∈ entriesRefs f (upsert l k v)) :
    r ∈ entriesRefs f l ∨ r ∈ f v := by
  obtain ⟨kv, hkv, hr⟩ := (entriesRefs_mem f _ r).mp h
  obtain ⟨a, b⟩ := kv
  rcases mem_upsert_cases _ _ _ _ _ hkv with h1 | ⟨_, h1⟩
  · exact Or.inl ((entriesRefs_mem f _ r).mpr ⟨(a, b), h1, hr⟩)
  · subst h1
    exact Or.inr hr

theorem defsGood_upsert {ds : Defs} {k : String} {v : Defn}
    (hg : defsGood ds) (hv : ∀ r ∈ defnRefs v, goodRef (upsert ds k v) r) :
    defsGood (upsert ds k v) := by
  intro r hr
  rcases entriesRefs_upsert defnRefs ds k v r hr with h1 | h1
  · exact goodRef_mono (keysLE_upsert ds k v) (hg r h1)
  · exact hv r h1

theorem confRefs_buildConf ( keyPre : String) (p : Param) (r : String)
    (h : r ∈ confRefs (buildConf keyPre p)) :
    p.params.isSome = true ∧ r = "#/definitions/" ++ ( keyPre ++ p.name) := by
  unfold buildConf at h
  cases hq : p.type with
  | array e =>
    rw [hq] at h
    cases hps : p.params with
    | none =>
      rw [hps] at h
      simp only [confRefs, itemsRefs, schemaRefs] at h
      split_ifs at h <;> simp at h
    | some inner =>
      rw [hps] at h
      simp only [confRefs, itemsRefs, schemaRefs] at h
      split_ifs at h <;> simp at h <;> exact ⟨rfl, h⟩
  | scalar t =>
    rw [hq] at h
    cases hps : p.params with
    | none =>
      rw [hps] at h
      simp only [confRefs, itemsRefs, schemaRefs] at h
      split_ifs at h <;> simp at h
    | some inner =>
      rw [hps] at h
      simp only [confRefs, itemsRefs, schemaRefs] at h
      simp at h
      exact ⟨rfl, h⟩

theorem entriesRefs_map_conf (l : List (String × Conf)) (r : String) :
    r ∈ entriesRefs bodyValRefs (l.map (fun kc => (kc.1, BodyVal.conf kc.2))) ↔
    r ∈ entriesRefs confRefs l := by
  induction l with
  | nil => simp [entriesRefs]
  | cons kv rest ih =>
    simp only [List.map_cons, entriesRefs, List.mem_append, ih, bodyValRefs]


theorem buildProps_good ( keyPre : String) (ps : List Param)
    (acc : List (String × Conf)) (defs : Defs) :
    keysLE defs (buildProps keyPre ps acc defs).2 ∧
    (defsGood defs →
      (∀ kc ∈ acc, ∀ rr ∈ confRefs kc.2, goodRef defs rr) →
      defsGood (buildProps keyPre ps acc defs).2 ∧
      (∀ kc ∈ (buildProps keyPre ps acc defs).1, ∀ rr ∈ confRefs kc.2,
        goodRef (buildProps keyPre ps acc defs).2 rr)) := by
  induction keyPre, ps, acc, defs using buildProps.induct with
  | case1 pre acc defs =>
    rw [buildProps]
    exact ⟨keysLE_refl defs, fun hg ha => ⟨hg, ha⟩⟩
  | case2 pre acc defs n t r d df e pp rest p defs1 ih_inner ih_rest =>
    cases pp with
    | some inner =>
      rw [buildProps]
      have ihi : keysLE defs (buildProps (pre ++ n ++ ".") inner [] defs).2 ∧
          (defsGood defs →
            (∀ kc ∈ ([] : List (String × Conf)), ∀ rr ∈ confRefs kc.2,
              goodRef defs rr) →
            defsGood (buildProps (pre ++ n ++ ".") inner [] defs).2 ∧
            (∀ kc ∈ (buildProps (pre ++ n ++ ".") inner [] defs).1,
              ∀ rr ∈ confRefs kc.2,
              goodRef (buildProps (pre ++ n ++ ".") inner [] defs).2 rr)) :=
        ih_inner
      have ihr : keysLE
            (upsert (buildProps (pre ++ n ++ ".") inner [] defs).2 (pre ++ n)
              ⟨"object", some (extractRequiredNames inner),
                (buildProps (pre ++ n ++ ".") inner [] defs).1.map
                  (fun kc => (kc.1, BodyVal.conf kc.2))⟩)
            (buildProps pre rest
              (upsert acc n (buildConf pre (.mk n t r d df e (some inner))))
              (upsert (buildProps (pre ++ n ++ ".") inner [] defs).2 (pre ++ n)
                ⟨"object", some (extractRequiredNames inner),
                  (buildProps (pre ++ n ++ ".") inner [] defs).1.map
                    (fun kc => (kc.1, BodyVal.conf kc.2))⟩)).2 ∧
          (defsGood
              (upsert (buildProps (pre ++ n ++ ".") inner [] defs).2 (pre ++ n)
                ⟨"object", some (extractRequiredNames inner),
                  (buildProps (pre ++ n ++ ".") inner [] defs).1.map
                    (fun kc => (kc.1, BodyVal.conf kc.2))⟩) →
            (∀ kc ∈ upsert acc n (buildConf pre (.mk n t r d df e (some inner))),
              ∀ rr ∈ confRefs kc.2,
              goodRef
                (upsert (buildProps (pre ++ n ++ ".") inner [] defs).2 (pre ++ n)
                  ⟨"object", some (extractRequiredNames inner),
                    (buildProps (pre ++ n ++ ".") inner [] defs).1.map
                      (fun kc => (kc.1, BodyVal.conf kc.2))⟩) rr) →
            defsGood
              (buildProps pre rest
                (upsert acc n (buildConf pre (.mk n t r d df e (some inner))))
                (upsert (buildProps (pre ++ n ++ ".") inner [] defs).2 (pre ++ n)
                  ⟨"object", some (extractRequiredNames inner),
                    (buildProps (pre ++ n ++ ".") inner [] defs).1.map
                      (fun kc => (kc.1, BodyVal.conf kc.2))⟩)).2 ∧
            (∀ kc ∈ (buildProps pre rest
                (upsert acc n (buildConf pre (.mk n t r d df e (some inner))))
                (upsert (buildProps (pre ++ n ++ ".") inner [] defs).2 (pre ++ n)
                  ⟨"object", some (extractRequiredNames inner),
                    (buildProps (pre ++ n ++ ".") inner [] defs).1.map
                      (fun kc => (kc.1, BodyVal.conf kc.2))⟩)).1,
              ∀ rr ∈ confRefs kc.2,
              goodRef
                (buildProps pre rest
                  (upsert acc n (buildConf pre (.mk n t r d df e (some inner))))
                  (upsert (buildProps (pre ++ n ++ ".") inner [] defs).2 (pre ++ n)
                    ⟨"object", some (extractRequiredNames inner),
                      (buildProps (pre ++ n ++ ".") inner [] defs).1.map
                        (fun kc => (kc.1, BodyVal.conf kc.2))⟩)).2 rr)) :=
        ih_rest
      have hle : keysLE defs
          (upsert (buildProps (pre ++ n ++ ".") inner [] defs).2 (pre ++ n)
            ⟨"object", some (extractRequiredNames inner),
              (buildProps (pre ++ n ++ ".") inner [] defs).1.map
                (fun kc => (kc.1, BodyVal.conf kc.2))⟩) :=
        keysLE_trans ihi.1 (keysLE_upsert _ _ _)
      refine ⟨keysLE_trans hle ihr.1, ?_⟩
      intro hgood hacc
      obtain ⟨goodPr, hprops⟩ := ihi.2 hgood (by simp)
      have hgood1 : defsGood
          (upsert (buildProps (pre ++ n ++ ".") inner [] defs).2 (pre ++ n)
            ⟨"object", some (extractRequiredNames inner),
              (buildProps (pre ++ n ++ ".") inner [] defs).1.map
                (fun kc => (kc.1, BodyVal.conf kc.2))⟩) := by
        apply defsGood_upsert goodPr
        intro rr hr
        rw [defnRefs] at hr
        rw [entriesRefs_map_conf] at hr
        obtain ⟨kc, hkc, hrr⟩ := (entriesRefs_mem confRefs _ rr).mp hr
        exact goodRef_mono (keysLE_upsert _ _ _) (hprops kc hkc rr hrr)
      have hacc1 : ∀ kc ∈ upsert acc n
            (buildConf pre (.mk n t r d df e (some inner))),
          ∀ rr ∈ confRefs kc.2,
          goodRef
            (upsert (buildProps (pre ++ n ++ ".") inner [] defs).2 (pre ++ n)
              ⟨"object", some (extractRequiredNames inner),
                (buildProps (pre ++ n ++ ".") inner [] defs).1.map
                  (fun kc => (kc.1, BodyVal.conf kc.2))⟩) rr := by
        rintro ⟨a, b⟩ hab rr hr
        rcases mem_upsert_cases _ _ _ _ _ hab with h1 | ⟨h1, h2⟩
        · exact goodRef_mono hle (hacc _ h1 rr hr)
        · subst h2
          obtain ⟨_, hreq⟩ :=
            confRefs_buildConf pre (.mk n t r d df e (some inner)) rr hr
          exact ⟨pre ++ n, hasKey_upsert_self _ _ _, hreq⟩
      exact ihr.2 hgood1 hacc1
    | none =>
      rw [buildProps]
      have ihr : keysLE defs
            (buildProps pre rest
              (upsert acc n (buildConf pre (.mk n t r d df e none))) defs).2 ∧
          (defsGood defs →
            (∀ kc ∈ upsert acc n (buildConf pre (.mk n t r d df e none)),
              ∀ rr ∈ confRefs kc.2, goodRef defs rr) →
            defsGood
              (buildProps pre rest
                (upsert acc n (buildConf pre (.mk n t r d df e none))) defs).2 ∧
            (∀ kc ∈ (buildProps pre rest
                (upsert acc n (buildConf pre (.mk n t r d df e none))) defs).1,
              ∀ rr ∈ confRefs kc.2,
              goodRef
                (buildProps pre rest
                  (upsert acc n (buildConf pre (.mk n t r d df e none))) defs).2
                rr)) :=
        ih_rest
      refine ⟨ihr.1, ?_⟩
      intro hgood hacc
      have hacc1 : ∀ kc ∈ upsert acc n (buildConf pre (.mk n t r d df e none)),
          ∀ rr ∈ confRefs kc.2, goodRef defs rr := by
        rintro ⟨a, b⟩ hab rr hr
        rcases mem_upsert_cases _ _ _ _ _ hab with h1 | ⟨h1, h2⟩
        · exact hacc _ h1 rr hr
        · subst h2
          obtain ⟨hsome, _⟩ :=
            confRefs_buildConf pre (.mk n t r d df e none) rr hr
          simp [Param.params] at hsome
      exact ihr.2 hgood hacc1

theorem confRefs_update (x : Conf) (a b : Option String) (c : Bool) :
    confRefs { x with paramIn := a, name := b, required := c } = confRefs x := rfl

theorem confRefs_update_in (x : Conf) (a : Option String) :
    confRefs { x with paramIn := a } = confRefs x := rfl

theorem schemaRefs_sub_confRefs (c : Conf) (s : Schema) (h : c.schema = some s)
    (rr : String) (hr : rr ∈ schemaRefs s) : rr ∈ confRefs c := by
  rw [confRefs, h]
  exact List.mem_append_right _ hr

theorem nestedDefn_good ( keyPre n : String) (inner : List Param) (defs : Defs) :
    keysLE defs
      (upsert (buildProps ( keyPre ++ n ++ ".") inner [] defs).2 ( keyPre ++ n)
        ⟨"object", some (extractRequiredNames inner),
          (buildProps ( keyPre ++ n ++ ".") inner [] defs).1.map
            (fun kc => (kc.1, BodyVal.conf kc.2))⟩) ∧
    (defsGood defs →
      defsGood
        (upsert (buildProps ( keyPre ++ n ++ ".") inner [] defs).2 ( keyPre ++ n)
          ⟨"object", some (extractRequiredNames inner),
            (buildProps ( keyPre ++ n ++ ".") inner [] defs).1.map
              (fun kc => (kc.1, BodyVal.conf kc.2))⟩)) := by
  obtain ⟨h1, h2⟩ := buildProps_good ( keyPre ++ n ++ ".") inner [] defs
  refine ⟨keysLE_trans h1 (keysLE_upsert _ _ _), ?_⟩
  intro hgood
  obtain ⟨goodPr, hprops⟩ := h2 hgood (by simp)
  apply defsGood_upsert goodPr
  intro rr hr
  rw [defnRefs] at hr
  rw [entriesRefs_map_conf] at hr
  obtain ⟨kc, hkc, hrr⟩ := (entriesRefs_mem confRefs _ rr).mp hr
  exact goodRef_mono (keysLE_upsert _ _ _) (hprops kc hkc rr hrr)

theorem buildParamsLoop_good (m : Method) (defaultIn : String) (isInBody : Bool)
    ( keyPre : String) (ps : List Param) :
    ∀ result body defs,
      keysLE defs
        (buildParamsLoop m defaultIn isInBody keyPre ps result body defs).2.2 ∧
      (defsGood defs →
        (∀ kc ∈ result, ∀ rr ∈ confRefs kc.2, goodRef defs rr) →
        (∀ kb ∈ body, ∀ rr ∈ bodyValRefs kb.2, goodRef defs rr) →
        defsGood
          (buildParamsLoop m defaultIn isInBody keyPre ps result body defs).2.2 ∧
        (∀ kc ∈ (buildParamsLoop m defaultIn isInBody keyPre ps result body defs).1,
          ∀ rr ∈ confRefs kc.2,
          goodRef
            (buildParamsLoop m defaultIn isInBody keyPre ps result body defs).2.2
            rr) ∧
        (∀ kb ∈
            (buildParamsLoop m defaultIn isInBody keyPre ps result body defs).2.1,
          ∀ rr ∈ bodyValRefs kb.2,
          goodRef
            (buildParamsLoop m defaultIn isInBody keyPre ps result body defs).2.2
            rr)) := by
  induction ps with
  | nil =>
    intro result body defs
    rw [buildParamsLoop]
    exact ⟨keysLE_refl defs, fun hg hres hbody => ⟨hg, hres, hbody⟩⟩
  | cons p rest ih =>
    intro result body defs
    obtain ⟨n, t, r, d, df, e, pp⟩ := p
    rw [buildParamsLoop]
    simp only [Param.params, Param.name]
    cases pp with
    | some inner =>
      have hnested := nestedDefn_good keyPre n inner defs
      have hnew : ∀ rr ∈ confRefs (buildConf keyPre (.mk n t r d df e (some inner))),
          goodRef
            (upsert (buildProps ( keyPre ++ n ++ ".") inner [] defs).2 ( keyPre ++ n)
              ⟨"object", some (extractRequiredNames inner),
                (buildProps ( keyPre ++ n ++ ".") inner [] defs).1.map
                  (fun kc => (kc.1, BodyVal.conf kc.2))⟩) rr :=
        fun rr hr =>
          ⟨ keyPre ++ n, hasKey_upsert_self _ _ _,
            (confRefs_buildConf keyPre (.mk n t r d df e (some inner)) rr hr).2⟩
      have hconf : confRefs
          (if paramInPath m n then
            { buildConf keyPre (.mk n t r d df e (some inner)) with
              paramIn := some "path" }
          else buildConf keyPre (.mk n t r d df e (some inner))) =
          confRefs (buildConf keyPre (.mk n t r d df e (some inner))) := by
        split <;> rfl
      by_cases hc : (isInBody && !(paramInPath m n)) = true
      · rw [if_pos hc]
        obtain ⟨ihA, ihB⟩ := ih result
          (upsert body n
            (match (if paramInPath m n then
                { buildConf keyPre (.mk n t r d df e (some inner)) with
                  paramIn := some "path" }
              else buildConf keyPre (.mk n t r d df e (some inner))).schema with
              | some s => BodyVal.sch s
              | none => BodyVal.conf
                  (if paramInPath m n then
                    { buildConf keyPre (.mk n t r d df e (some inner)) with
                      paramIn := some "path" }
                  else buildConf keyPre (.mk n t r d df e (some inner)))))
          (upsert (buildProps ( keyPre ++ n ++ ".") inner [] defs).2 ( keyPre ++ n)
            ⟨"object", some (extractRequiredNames inner),
              (buildProps ( keyPre ++ n ++ ".") inner [] defs).1.map
                (fun kc => (kc.1, BodyVal.conf kc.2))⟩)
        refine ⟨keysLE_trans hnested.1 ihA, ?_⟩
        intro hg hres hbody
        have hbv : ∀ rr ∈ bodyValRefs
            (match (if paramInPath m n then
                { buildConf keyPre (.mk n t r d df e (some inner)) with
                  paramIn := some "path" }
              else buildConf keyPre (.mk n t r d df e (some inner))).schema with
              | some s => BodyVal.sch s
              | none => BodyVal.conf
                  (if paramInPath m n then
                    { buildConf keyPre (.mk n t r d df e (some inner)) with
                      paramIn := some "path" }
                  else buildConf keyPre (.mk n t r d df e (some inner)))),
            rr ∈ confRefs
              (if paramInPath m n then
                { buildConf keyPre (.mk n t r d df e (some inner)) with
                  paramIn := some "path" }
              else buildConf keyPre (.mk n t r d df e (some inner))) := by
          intro rr hr
          cases hsch : (if paramInPath m n then
              { buildConf keyPre (.mk n t r d df e (some inner)) with
                paramIn := some "path" }
            else buildConf keyPre (.mk n t r d df e (some inner))).schema with
          | some s =>
            rw [hsch] at hr
            exact schemaRefs_sub_confRefs _ s hsch rr hr
          | none =>
            rw [hsch] at hr
            exact hr
        apply ihB (hnested.2 hg)
        · intro kc hkc rr hr
          exact goodRef_mono hnested.1 (hres kc hkc rr hr)
        · rintro ⟨a, b⟩ hab rr hr
          rcases mem_upsert_cases _ _ _ _ _ hab with h1 | ⟨h1, h2⟩
          · exact goodRef_mono hnested.1 (hbody _ h1 rr hr)
          · subst h2
            have := hbv rr hr
            rw [hconf] at this
            exact hnew rr this
      · rw [if_neg hc]
        obtain ⟨ihA, ihB⟩ := ih
          (upsert result n
            { (if paramInPath m n then
                { buildConf keyPre (.mk n t r d df e (some inner)) with
                  paramIn := some "path" }
              else buildConf keyPre (.mk n t r d df e (some inner))) with
              paramIn := some ((if paramInPath m n then
                  { buildConf keyPre (.mk n t r d df e (some inner)) with
                    paramIn := some "path" }
                else buildConf keyPre (.mk n t r d df e (some inner))).paramIn.getD
                  defaultIn),
              name := some n,
              required := if paramInPath m n then true else r })
          body
          (upsert (buildProps ( keyPre ++ n ++ ".") inner [] defs).2 ( keyPre ++ n)
            ⟨"object", some (extractRequiredNames inner),
              (buildProps ( keyPre ++ n ++ ".") inner [] defs).1.map
                (fun kc => (kc.1, BodyVal.conf kc.2))⟩)
        refine ⟨keysLE_trans hnested.1 ihA, ?_⟩
        intro hg hres hbody
        apply ihB (hnested.2 hg)
        · rintro ⟨a, b⟩ hab rr hr
          rcases mem_upsert_cases _ _ _ _ _ hab with h1 | ⟨h1, h2⟩
          · exact goodRef_mono hnested.1 (hres _ h1 rr hr)
          · subst h2
            rw [confRefs_update] at hr
            rw [hconf] at hr
            exact hnew rr hr
        · intro kb hkb rr hr
          exact goodRef_mono hnested.1 (hbody kb hkb rr hr)
    | none =>
      have hnone : ∀ rr ∈ confRefs (buildConf keyPre (.mk n t r d df e none)),
          False := by
        intro rr hr
        obtain ⟨hsome, _⟩ := confRefs_buildConf keyPre (.mk n t r d df e none) rr hr
        simp [Param.params] at hsome
      have hconf : confRefs
          (if paramInPath m n then
            { buildConf keyPre (.mk n t r d df e none) with
              paramIn := some "path" }
          else buildConf keyPre (.mk n t r d df e none)) =
          confRefs (buildConf keyPre (.mk n t r d df e none)) := by
        split <;> rfl
      by_cases hc : (isInBody && !(paramInPath m n)) = true
      · rw [if_pos hc]
        obtain ⟨ihA, ihB⟩ := ih result
          (upsert body n
            (match (if paramInPath m n then
                { buildConf keyPre (.mk n t r d df e none) with
                  paramIn := some "path" }
              else buildConf keyPre (.mk n t r d df e none)).schema with
              | some s => BodyVal.sch s
              | none => BodyVal.conf
                  (if paramInPath m n then
                    { buildConf keyPre (.mk n t r d df e none) with
                      paramIn := some "path" }
                  else buildConf keyPre (.mk n t r d df e none))))
          defs
        refine ⟨ihA, ?_⟩
        intro hg hres hbody
        apply ihB hg hres
        rintro ⟨a, b⟩ hab rr hr
        rcases mem_upsert_cases _ _ _ _ _ hab with h1 | ⟨h1, h2⟩
        · exact hbody _ h1 rr hr
        · subst h2
          exfalso
          apply hnone rr
          rw [← hconf]
          cases hsch : (if paramInPath m n then
              { buildConf keyPre (.mk n t r d df e none) with
                paramIn := some "path" }
            else buildConf keyPre (.mk n t r d df e none)).schema with
          | some s =>
            rw [hsch] at hr
            exact schemaRefs_sub_confRefs _ s hsch rr hr
          | none =>
            rw [hsch] at hr
            exact hr
      · rw [if_neg hc]
        obtain ⟨ihA, ihB⟩ := ih
          (upsert result n
            { (if paramInPath m n then
                { buildConf keyPre (.mk n t r d df e none) with
                  paramIn := some "path" }
              else buildConf keyPre (.mk n t r d df e none)) with
              paramIn := some ((if paramInPath m n then
                  { buildConf keyPre (.mk n t r d df e none) with
                    paramIn := some "path" }
                else buildConf keyPre (.mk n t r d df e none)).paramIn.getD
                  defaultIn),
              name := some n,
              required := if paramInPath m n then true else r })
          body defs
        refine ⟨ihA, ?_⟩
        intro hg hres hbody
        apply ihB hg
        · rintro ⟨a, b⟩ hab rr hr
          rcases mem_upsert_cases _ _ _ _ _ hab with h1 | ⟨h1, h2⟩
          · exact hres _ h1 rr hr
          · subst h2
            exfalso
            apply hnone rr
            rw [← hconf, ← confRefs_update _ (some ((if paramInPath m n then
                { buildConf keyPre (.mk n t r d df e none) with
                  paramIn := some "path" }
              else buildConf keyPre (.mk n t r d df e none)).paramIn.getD
                defaultIn)) (some n) (if paramInPath m n then true else r)]
            exact hr
        · exact hbody

theorem buildParameters_good (m : Method) (params : List Param) (defs : Defs) :
    keysLE defs (buildParameters m params defs).2 ∧
    (defsGood defs →
      defsGood (buildParameters m params defs).2 ∧
      ∀ c ∈ (buildParameters m params defs).1, ∀ rr ∈ confRefs c,
        goodRef (buildParameters m params defs).2 rr) := by
  obtain ⟨hA, hB⟩ := buildParamsLoop_good m
    (chooseParameterPositionBy m.route.verb params)
    (decide (chooseParameterPositionBy m.route.verb params = "body"))
    (m.fullName ++ ".params" ++ ".") params [] [] defs
  unfold buildParameters buildParamsRaw
  dsimp only
  split_ifs with h1 h2
  · refine ⟨hA, ?_⟩
    intro hg
    obtain ⟨g1, g2, g3⟩ := hB hg (by simp) (by simp)
    refine ⟨g1, ?_⟩
    intro c hc rr hr
    rcases List.mem_append.mp hc with hcm | hcm
    · obtain ⟨kc, hkc, hkc2⟩ := List.mem_map.mp hcm
      subst hkc2
      exact g2 kc hkc rr hr
    · simp only [List.mem_singleton] at hcm
      subst hcm
      simp [bodyParamOptional, confRefs, schemaRefs, itemsRefs] at hr
  · constructor
    · exact keysLE_trans hA (keysLE_upsert _ _ _)
    · intro hg
      obtain ⟨g1, g2, g3⟩ := hB hg (by simp) (by simp)
      have hgood2 : defsGood
          (upsert (buildParamsLoop m (chooseParameterPositionBy m.route.verb params)
              (decide (chooseParameterPositionBy m.route.verb params = "body"))
              (m.fullName ++ ".params" ++ ".") params [] [] defs).2.2
            (m.fullName ++ ".params")
            ⟨"object", none,
              (buildParamsLoop m (chooseParameterPositionBy m.route.verb params)
                (decide (chooseParameterPositionBy m.route.verb params = "body"))
                (m.fullName ++ ".params" ++ ".") params [] [] defs).2.1⟩) := by
        apply defsGood_upsert g1
        intro rr hr
        rw [defnRefs] at hr
        obtain ⟨kb, hkb, hrr⟩ := (entriesRefs_mem _ _ _).mp hr
        exact goodRef_mono (keysLE_upsert _ _ _) (g3 kb hkb rr hrr)
      refine ⟨hgood2, ?_⟩
      intro c hc rr hr
      rcases List.mem_append.mp hc with hcm | hcm
      · obtain ⟨kc, hkc, hkc2⟩ := List.mem_map.mp hcm
        subst hkc2
        exact goodRef_mono (keysLE_upsert _ _ _) (g2 kc hkc rr hr)
      · simp only [List.mem_singleton] at hcm
        subst hcm
        have hrr : rr = "#/definitions/" ++ (m.fullName ++ ".params") := by
          simpa [bodyParamRequired, confRefs, schemaRefs, itemsRefs] using hr
        exact ⟨m.fullName ++ ".params", hasKey_upsert_self _ _ _, hrr⟩
  · refine ⟨hA, ?_⟩
    intro hg
    obtain ⟨g1, g2, g3⟩ := hB hg (by simp) (by simp)
    refine ⟨g1, ?_⟩
    intro c hc rr hr
    obtain ⟨kc, hkc, hkc2⟩ := List.mem_map.mp hc
    subst hkc2
    exact g2 kc hkc rr hr

theorem confsRefs_mem (l : List Conf) (rr : String) (h : rr ∈ confsRefs l) :
    ∃ c ∈ l, rr ∈ confRefs c := by
  induction l with
  | nil => simp [confsRefs] at h
  | cons c rest ih =>
    rw [confsRefs] at h
    rcases List.mem_append.mp h with h1 | h1
    · exact ⟨c, List.mem_cons_self _ _, h1⟩
    · obtain ⟨c2, hc2, hrr⟩ := ih h1
      exact ⟨c2, List.mem_cons_of_mem _ hc2, hrr⟩

theorem pvalsRefs_mem (ch : List (String × PVal)) (rr : String) :
    rr ∈ pvalsRefs ch ↔ ∃ kv ∈ ch, rr ∈ pvalRefs kv.2 := by
  induction ch with
  | nil => simp [pvalsRefs]
  | cons kv rest ih =>
    rw [pvalsRefs]
    simp only [List.mem_append, ih, List.mem_cons]
    constructor
    · rintro (h | ⟨kv2, hkv2, hr⟩)
      · exact ⟨kv, Or.inl rfl, h⟩
      · exact ⟨kv2, Or.inr hkv2, hr⟩
    · rintro ⟨kv2, hkv2 | hkv2, hr⟩
      · subst hkv2
        exact Or.inl hr
      · exact Or.inr ⟨kv2, hkv2, hr⟩

theorem pvalsRefs_upsert (ch : List (String × PVal)) (k : String) (v : PVal)
    (rr : String) (h : rr ∈ pvalsRefs (upsert ch k v)) :
    rr ∈ pvalsRefs ch ∨ rr ∈ pvalRefs v := by
  obtain ⟨kv, hkv, hr⟩ := (pvalsRefs_mem _ rr).mp h
  obtain ⟨a, b⟩ := kv
  rcases mem_upsert_cases _ _ _ _ _ hkv with h1 | ⟨_, h1⟩
  · exact Or.inl ((pvalsRefs_mem _ rr).mpr ⟨(a, b), h1, hr⟩)
  · subst h1
    exact Or.inr hr

theorem lodashGetL_refs (ks : List String) :
    ∀ (ch : List (String × PVal)) (v : PVal), lodashGetL ch ks = some v →
      ∀ rr ∈ pvalRefs v, rr ∈ pvalsRefs ch := by
  induction ks with
  | nil =>
    intro ch v h
    simp [lodashGetL] at h
  | cons k rest ih =>
    intro ch v h rr hr
    cases rest with
    | nil =>
      rw [lodashGetL] at h
      exact (pvalsRefs_mem _ rr).mpr ⟨(k, v), alookup_mem _ _ _ h, hr⟩
    | cons k2 rest2 =>
      rw [lodashGetL] at h
      cases halk : alookup ch k with
      | none => rw [halk] at h; exact absurd h (by simp)
      | some v' =>
        rw [halk] at h
        cases v' with
        | leaf ops => exact absurd h (by simp)
        | node ch' =>
          have hrr : rr ∈ pvalsRefs ch' := ih ch' v h rr hr
          exact (pvalsRefs_mem _ rr).mpr
            ⟨(k, .node ch'), alookup_mem _ _ _ halk, hrr⟩

theorem lodashSetL_refs (ks : List String) :
    ∀ (ch : List (String × PVal)) (v : PVal) (rr : String),
      rr ∈ pvalsRefs (lodashSetL ch ks v) →
      rr ∈ pvalsRefs ch ∨ rr ∈ pvalRefs v := by
  induction ks with
  | nil =>
    intro ch v rr h
    rw [lodashSetL] at h
    exact Or.inl h
  | cons k rest ih =>
    intro ch v rr h
    cases rest with
    | nil =>
      rw [lodashSetL] at h
      exact pvalsRefs_upsert _ _ _ _ h
    | cons k2 rest2 =>
      rw [lodashSetL] at h
      rcases pvalsRefs_upsert _ _ _ _ h with h1 | h1
      · exact Or.inl h1
      · rw [pvalRefs] at h1
        rcases ih _ v rr h1 with h2 | h2
        · cases halk : alookup ch k with
          | none =>
            rw [halk] at h2
            simp [pvalsRefs] at h2
          | some v' =>
            rw [halk] at h2
            cases v' with
            | leaf ops =>
              simp [pvalsRefs] at h2
            | node ch' =>
              exact Or.inl ((pvalsRefs_mem _ rr).mpr
                ⟨(k, .node ch'), alookup_mem _ _ _ halk, h2⟩)
        · exact Or.inr h2

theorem foldl_upsert_op_refs (verbs : List String) :
    ∀ (acc : List (String × Operation)) (op : Operation) (rr : String),
      rr ∈ entriesRefs opRefs (verbs.foldl (fun a v => upsert a v op) acc) →
      rr ∈ entriesRefs opRefs acc ∨ rr ∈ opRefs op := by
  induction verbs with
  | nil =>
    intro acc op rr h
    exact Or.inl h
  | cons v rest ih =>
    intro acc op rr h
    rw [List.foldl_cons] at h
    rcases ih _ op rr h with h1 | h1
    · exact entriesRefs_upsert _ _ _ _ _ h1
    · exact Or.inr h1

/-- The state invariant: the definitions map is self-contained and every
`$ref` stored in the paths tree resolves in it. -/
def stateGood (st : SwaggerState) : Prop :=
  defsGood st.definitions ∧
  ∀ rr ∈ pvalsRefs st.paths, goodRef st.definitions rr

theorem addPath_stateGood (P : PluginCtx) (st : SwaggerState) (m : Method)
    (h : stateGood st) : stateGood (addPath P st m) := by
  obtain ⟨bpA, bpB⟩ := buildParameters_good m m.params st.definitions
  by_cases hn : m.name = "__swagger__"
  · rw [addPath, if_pos hn]
    exact h
  · by_cases hu : m.route.verb = "use"
    · rw [addPath, if_neg hn]
      rw [if_pos hu]
      exact h
    · have hpaths : (addPath P st m).paths =
          lodashSetL st.paths (stringToPath (pathReplacer m.fullPath))
            (.leaf (addPathOps P st m)) := by
        simp only [addPath, addPathOps, if_neg hn, if_neg hu]
      have hdefs : (addPath P st m).definitions =
          (buildParameters m m.params st.definitions).2 := by
        simp only [addPath, if_neg hn, if_neg hu]
      constructor
      · rw [hdefs]
        exact (bpB h.1).1
      · intro rr hr
        rw [hpaths] at hr
        rw [hdefs]
        rcases lodashSetL_refs _ _ _ _ hr with h1 | h1
        · exact goodRef_mono bpA (h.2 rr h1)
        · rw [pvalRefs] at h1
          have hcases : rr ∈ entriesRefs opRefs
              (match lodashGetL st.paths (stringToPath (pathReplacer m.fullPath)) with
                | some (.leaf ops) => ops
                | _ => []) ∨
              rr ∈ opRefs (buildOperation P m
                (chooseContentType (buildParameters m m.params st.definitions).1)
                (buildParameters m m.params st.definitions).1) := by
            rw [addPathOps] at h1
            by_cases hall : m.route.verb = "all"
            · rw [if_pos hall] at h1
              exact foldl_upsert_op_refs _ _ _ _ h1
            · rw [if_neg hall] at h1
              exact entriesRefs_upsert _ _ _ _ _ h1
          rcases hcases with h2 | h2
          · cases hg : lodashGetL st.paths (stringToPath (pathReplacer m.fullPath)) with
            | none =>
              rw [hg] at h2
              simp [entriesRefs] at h2
            | some v =>
              rw [hg] at h2
              cases v with
              | node ch => simp [entriesRefs] at h2
              | leaf ops =>
                have hmem : rr ∈ pvalsRefs st.paths :=
                  lodashGetL_refs _ _ _ hg rr (by rw [pvalRefs]; exact h2)
                exact goodRef_mono bpA (h.2 rr hmem)
          · have h3 : rr ∈ confsRefs (buildParameters m m.params st.definitions).1 :=
              h2
            obtain ⟨c, hc, hrr⟩ := confsRefs_mem _ _ h3
            exact (bpB h.1).2 c hc rr hrr

theorem foldl_addPath_stateGood (P : PluginCtx) (methods : List Method) :
    ∀ st, stateGood st → stateGood (methods.foldl (addPath P) st) := by
  induction methods with
  | nil => exact fun st h => h
  | cons m ms ih =>
    intro st h
    rw [List.foldl_cons]
    exact ih _ (addPath_stateGood P st m h)

/-- C7: in a synthesized document whose seeded definitions are themselves
self-contained (in particular when no seed is given), every `$ref` string
occurring anywhere in the document — in parameter schemas, array items,
body parameters stored in the paths tree, or in (nested) definition
properties — is `#/definitions/<k>` for a key `k` present in the output
`definitions` map. -/
theorem docRefs_resolve (methods : List Method) (opts : SwaggerOptions)
    (hseed : defsGood opts.seedDefinitions) :
    ∀ rr ∈ docRefs (buildSwaggerConfig methods opts),
      goodRef (buildSwaggerConfig methods opts).definitions rr := by
  have hst := foldl_addPath_stateGood
    { defaultResponses := opts.defaultResponses.getD DEFAULT_RESPONSES,
      supportTypes := opts.supportedTypes.getD ["application/json"],
      securities := mkSecurities opts.securityDefinitions }
    methods ⟨[], [], [], opts.seedDefinitions⟩
    ⟨hseed, by intro rr hr; simp [pvalsRefs] at hr⟩
  intro rr hr
  rw [docRefs] at hr
  rcases List.mem_append.mp hr with h1 | h1
  · exact hst.2 rr h1
  · exact hst.1 rr h1

/-- The default (empty) options record. -/
def opts0 : SwaggerOptions := ⟨none, none, [], []⟩

/-- C7 witness: the theorem applied to the one-route table `[mUsersCreate]`
under the default options (empty seed), at the `$ref` generated for the
body definition of that route. -/
theorem docRefs_resolve_witness :
    goodRef (buildSwaggerConfig [mUsersCreate] opts0).definitions
      "#/definitions/users.create.params" :=
  docRefs_resolve [mUsersCreate] opts0
    (fun rr hr => absurd hr (List.not_mem_nil rr))
    "#/definitions/users.create.params" (by decide)
